import Mathlib

/-!
Shallow embedding of the downloader's range-partitioned download engine.

Sources embedded here:
* `src/src/range.hpp` — the closed integer interval `Range` and its
  operations (`valid`, `operator<`, `operator==`, `intersected`,
  `mergeable`, `operator+`, `size`).
* `src/src/range_file.hpp` — `Range2` (a `Range` with fill cursor and
  state), `RangeFileMeta` (block hint, byte totals and the three interval
  sets), and the `RangeFile` operations `allocate`, `fill`, `deallocate`,
  `is_full`, `close`, plus the metadata-restore step of `open` and
  `RangeFileMeta::valid`.
* the downloader translation unit — the request-error classifier
  `HandleRequestError` and the direct-vs-multi mode decision of
  `DownloadFile`.

`std::set<Range2>` is ordered by `Range::operator<`, which compares the
`start` fields only; we model such a set as a list kept sorted by `start`
holding at most one member per `start`, with the set operations
(`insert` failing on an equivalent key, `find`, `erase`) translated
accordingly.  File and metadata I/O is outside the model: `fill` is
modelled on its success path, and `open`'s restore step is modelled as
the pure function from the deserialized archive to the adopted state.
The tiling loop inside `allocate` is a C++ `do/while`; since it does not
terminate for every parameter combination, it is modelled with explicit
fuel, `none` meaning the loop has not exited within the given number of
iterations.
-/

set_option linter.unusedVariables false

/-- Fill state of a tracked interval (the anonymous enum inside `Range2`). -/
inductive RState
| kUnfilled
| kPending
| kPartial
| kFilled
deriving DecidableEq, Repr

/-- `Range` (range.hpp): closed interval `[start, end]` of `int64_t`;
default `-1` bounds denote the invalid range. -/
structure Range where
  start : Int := -1
  end_ : Int := -1
deriving DecidableEq, Repr

instance : Inhabited Range := ⟨{}⟩

namespace Range

/-- `Range::valid()`: `start >= 0 && start <= end`. -/
def valid (r : Range) : Bool := 0 ≤ r.start && r.start ≤ r.end_

/-- `Range::operator<`: compares the two `start` fields only. -/
def lt (a b : Range) : Bool := a.start < b.start

/-- `Range::operator==`: both bounds must coincide. -/
def eqOp (a b : Range) : Bool := a.start = b.start && a.end_ = b.end_

/-- Key equivalence induced on `std::set<Range2>` by `Range::operator<`:
two values denote the same member iff neither is less than the other. -/
def setEquiv (a b : Range) : Bool := !lt a b && !lt b a

/-- `Range::intersected`. -/
def intersected (a b : Range) : Bool := !(a.end_ < b.start || a.start > b.end_)

/-- `Range::mergeable`: false on invalid input, else intersecting or
adjacent (distance one between an end of one and a start of the other). -/
def mergeable (a b : Range) : Bool :=
  if !a.valid || !b.valid then false
  else if a.intersected b then true
  else (a.start - b.end_).natAbs = 1 || (a.end_ - b.start).natAbs = 1

/-- `Range::operator+`: union of two mergeable ranges; the invalid range
otherwise. -/
def add (a b : Range) : Range :=
  if a.mergeable b then
    if a.intersected b then { start := min a.start b.start, end_ := max a.end_ b.end_ }
    else if lt a b then { start := a.start, end_ := b.end_ }
    else { start := b.start, end_ := a.end_ }
  else {}

/-- `Range::size()`: `end - start + 1` when valid, `0` otherwise. -/
def size (r : Range) : Int := if r.valid then r.end_ - r.start + 1 else 0

end Range

/-- `Range2` (range_file.hpp): a `Range` together with the fill cursor
`position` (exclusive right end of the filled part) and a fill state. -/
structure Range2 extends Range where
  position : Int := 0
  state : RState := .kUnfilled
deriving DecidableEq, Repr

instance : Inhabited Range2 := ⟨{}⟩

/-- `std::set<Range2>::insert` on the sorted-by-`start` list model:
ordered insert, a no-op when an equivalent key (same `start`) is present
(`std::set::insert` fails on an equivalent key). -/
def setInsert : List Range2 → Range2 → List Range2
  | [], r => [r]
  | x :: xs, r =>
    if r.start < x.start then r :: x :: xs
    else if x.start < r.start then x :: setInsert xs r
    else x :: xs

/-- `std::set<Range2>::find` with a key whose `start` is `s`: the member
with that `start`, if any. -/
def setFindStart : List Range2 → Int → Option Range2
  | [], _ => none
  | x :: xs, s => if x.start = s then some x else setFindStart xs s

/-- `std::set<Range2>::erase` of the member whose `start` is `s`. -/
def setErase : List Range2 → Int → List Range2
  | [], _ => []
  | x :: xs, s => if x.start = s then xs else x :: setErase xs s

/-- The `const_cast` update inside `RangeFile::fill`: locate the member
with the same `start` and overwrite its `state` and `position` in place
(its bounds are kept). -/
def setUpdate : List Range2 → Range2 → List Range2
  | [], _ => []
  | x :: xs, r =>
    if x.start = r.start then { x with state := r.state, position := r.position } :: xs
    else x :: setUpdate xs r

/-- `RangeFileMeta` (range_file.hpp): block-size hint, total bytes
(`-1` meaning uninitialized), processed bytes, and the three interval
sets. -/
structure RangeFileMeta where
  _blockHint : Int := 0
  _bytesTotal : Int := -1
  _bytesProcessed : Int := 0
  _allocateRanges : List Range2 := []
  _finishedRanges : List Range2 := []
  _availableRanges : List Range2 := []
deriving DecidableEq, Repr

/-- The state built by `RangeFile(size, sizeHint)` or by a successful
`reserve(size, sizeHint)` on a fresh object: the three sets empty and no
bytes processed. -/
def freshMeta (size hint : Int) : RangeFileMeta :=
  { _blockHint := hint, _bytesTotal := size, _bytesProcessed := 0,
    _allocateRanges := [], _finishedRanges := [], _availableRanges := [] }

/-- The loop body of `mergeRanges` inside `RangeFile::deallocate`:
walk the ordered members keeping a running entry `last`; an invalid
`last` is replaced by the next member; a `last` mergeable with the next
member is replaced by their union carrying the larger `position` and
`last`'s state; otherwise `last` is emitted and the walk continues.
Emissions are produced in increasing `start` order on the (sorted,
pairwise disjoint) lists this is applied to, so collecting them in a
list coincides with re-inserting them into a fresh `std::set`. -/
def mergeAux (last : Range2) : List Range2 → List Range2
  | [] => [last]
  | r :: rest =>
    if !last.toRange.valid then mergeAux r rest
    else if last.toRange.mergeable r.toRange then
      mergeAux ⟨last.toRange.add r.toRange, max last.position r.position, last.state⟩ rest
    else last :: mergeAux r rest

/-- `mergeRanges` of `RangeFile::deallocate`: the walk starts from a
default-constructed (invalid) running entry; on an empty input the
default entry itself is emitted, exactly as in the source. -/
def mergeRangesList (L : List Range2) : List Range2 := mergeAux {} L

/-- The `do/while` tiling loop inside `RangeFile::allocate`, with fuel:
from the running chunk `last`, the next chunk starts at `last.end + 1`
(or at `0` when `last.end ≤ 0`) and ends at
`min (start + blockHint - 1) (bytesTotal - 1)`; it is inserted into the
available set and the loop exits once the chunk end reaches
`bytesTotal - 1`.  `none` means the loop did not exit within `fuel`
iterations. -/
def tileLoop (hint total : Int) : Nat → Range2 → List Range2 → Option (List Range2)
  | 0, _, _ => none
  | fuel + 1, last, acc =>
    let s : Int := if 0 < last.end_ then last.end_ + 1 else 0
    let e : Int := min (s + hint - 1) (total - 1)
    let c : Range2 := { start := s, end_ := e, position := last.position, state := last.state }
    let acc2 := setInsert acc c
    if e < total - 1 then tileLoop hint total fuel c acc2 else some acc2

/-- `RangeFile::allocate`: reject when `bytesTotal ≤ 0`; tile the file
into available chunks when all three sets are empty; then pop the least
available chunk (the set's first member), mark it `kPending` with
`position = start`, insert it into the allocated set and hand it to the
caller.  The returned `Option Range2` is the out-parameter (`none` means
the C++ function returned `false`); the outer `Option` is `none` when
the tiling loop does not terminate within `fuel` iterations. -/
def allocate (fuel : Nat) (rf : RangeFileMeta) : Option (RangeFileMeta × Option Range2) :=
  if rf._bytesTotal ≤ 0 then some (rf, none)
  else
    match
      (if rf._availableRanges.isEmpty && rf._allocateRanges.isEmpty && rf._finishedRanges.isEmpty
       then tileLoop rf._blockHint rf._bytesTotal fuel { start := 0, end_ := 0 } []
       else some rf._availableRanges) with
    | none => none
    | some avail =>
      match avail with
      | [] => some ({ rf with _availableRanges := avail }, none)
      | c :: rest =>
        let c2 := { c with state := RState.kPending, position := c.start }
        some ({ rf with _availableRanges := rest,
                        _allocateRanges := setInsert rf._allocateRanges c2 }, some c2)

/-- `RangeFile::fill(range, bytes, size, error)` on its success path.
Guard: an invalid range or one in state `kFilled`/`kUnfilled` is a
runtime error (no state change); `size ≤ 0` is a no-op success.
Otherwise the bytes are written at offset `position`, `processed` grows
by `size`, the caller's copy advances its cursor and becomes `kFilled`
exactly when the cursor reaches `end + 1` (else `kPartial`), and the
canonical member with the same `start` mirrors the new state and cursor.
Returns the new meta state and the updated caller's copy. -/
def fill (rf : RangeFileMeta) (range : Range2) (size : Int) : RangeFileMeta × Range2 :=
  if !range.toRange.valid || range.state = RState.kFilled || range.state = RState.kUnfilled then
    (rf, range)
  else if size ≤ 0 then (rf, range)
  else
    let pos := range.position + size
    let st := if pos = range.end_ + 1 then RState.kFilled else RState.kPartial
    let range2 := { range with position := pos, state := st }
    ({ rf with _bytesProcessed := rf._bytesProcessed + size,
               _allocateRanges := setUpdate rf._allocateRanges range2 }, range2)

/-- `RangeFile::deallocate`: find the allocated member equivalent to the
argument (same `start`), erase it, then dispatch on the argument's
state: `kPending` goes back to available as `[start, end]` (unfilled);
`kFilled` goes to finished and finished is coalesced; `kPartial` puts
the filled prefix `[start, position-1]` into finished (then coalesces)
and the tail `[position, end]` back into available.  Returns `false`
when the member is absent or the state is `kUnfilled` (the switch falls
through after the erase). -/
def deallocate (rf : RangeFileMeta) (range : Range2) : RangeFileMeta × Bool :=
  match setFindStart rf._allocateRanges range.start with
  | none => (rf, false)
  | some _ =>
    let rf1 := { rf with _allocateRanges := setErase rf._allocateRanges range.start }
    match range.state with
    | RState.kPending =>
      ({ rf1 with _availableRanges :=
          setInsert rf1._availableRanges ⟨⟨range.start, range.end_⟩, 0, .kUnfilled⟩ }, true)
    | RState.kFilled =>
      ({ rf1 with _finishedRanges :=
          mergeRangesList (setInsert rf1._finishedRanges range) }, true)
    | RState.kPartial =>
      ({ rf1 with
          _finishedRanges := mergeRangesList (setInsert rf1._finishedRanges
            ⟨⟨range.start, range.position - 1⟩, range.position - 1, .kFilled⟩),
          _availableRanges :=
            setInsert rf1._availableRanges ⟨⟨range.position, range.end_⟩, 0, .kUnfilled⟩ }, true)
    | RState.kUnfilled => (rf1, false)

/-- `RangeFile::is_full`: the finished set is the single member whose
bounds (compared by `Range::operator==`) are `[0, bytesTotal-1]`. -/
def is_full (rf : RangeFileMeta) : Bool :=
  match rf._finishedRanges with
  | [r] => Range.eqOp r.toRange ⟨0, rf._bytesTotal - 1⟩
  | _ => false

/-- `util::Error` codes from uerror.h used by the engine. -/
def kSucceed : Int := 0x00
/-- `util::kRuntimeError`. -/
def kRuntimeError : Int := 0x03
/-- `util::kOperationFailed`. -/
def kOperationFailed : Int := 0x2a
/-- `util::kOperationInterrupted`. -/
def kOperationInterrupted : Int := 0x2b
/-- `util::kFilesystemError`. -/
def kFilesystemError : Int := 0x51
/-- `util::kFileNotFound`. -/
def kFileNotFound : Int := 0x61
/-- `util::kNetworkError`. -/
def kNetworkError : Int := 0x81
/-- `util::kServerError`. -/
def kServerError : Int := 0xa1

/-- The coordinator's global flag values: `enum { kRunning = 0, kFailed, kCancelled }`. -/
def kRunning : Int := 0
/-- Global flag `kFailed`. -/
def kFailed : Int := 1
/-- Global flag `kCancelled`. -/
def kCancelled : Int := 2

/-- The meta state after the final reset block of `RangeFile::close`:
all sets cleared, `blockHint` back to the default `0x100000`,
`bytesTotal = -1`, `processed = 0`. -/
def clearedMeta : RangeFileMeta :=
  { _blockHint := 0x100000, _bytesTotal := -1, _bytesProcessed := 0,
    _allocateRanges := [], _finishedRanges := [], _availableRanges := [] }

/-- `RangeFile::close(finished, error)` on the meta state, with file
moves modelled as succeeding.  When `finished` and `bytesTotal > 0` and
the file is not full, it returns `kRuntimeError` *early*: the reset
block at the end of the function is not reached and the meta state is
left as it was.  On every other path the sets are cleared and the
counters reset. -/
def close (rf : RangeFileMeta) (finished : Bool) : RangeFileMeta × Option Int :=
  if finished && 0 < rf._bytesTotal && !is_full rf then (rf, some kRuntimeError)
  else (clearedMeta, none)

/-- `RangeFileMeta::valid()`: the members of the three sets together
account for exactly `bytesTotal` bytes. -/
def sumSizes (L : List Range2) : Int := (L.map (fun r => r.toRange.size)).sum

/-- `RangeFileMeta::valid()` itself (summing finished, then available,
then allocated sizes). -/
def metaValid (m : RangeFileMeta) : Bool :=
  sumSizes m._finishedRanges + sumSizes m._availableRanges + sumSizes m._allocateRanges
    = m._bytesTotal

/-- The restore step of `RangeFile::open` applied to the deserialized
archive: every allocated member is conservatively pushed back into the
available set as `[start, end]`, `processed` loses `position - start`
per member, and the allocated set is cleared. -/
def restoreArchive (archive : RangeFileMeta) : RangeFileMeta :=
  let a := archive._allocateRanges.foldl
    (fun m r =>
      { m with
        _availableRanges := setInsert m._availableRanges ⟨⟨r.start, r.end_⟩, 0, .kUnfilled⟩,
        _bytesProcessed := m._bytesProcessed - (r.position - r.start) }) archive
  { a with _allocateRanges := [] }

/-- The metadata-adoption logic of `RangeFile::open` once a metadata
file has been deserialized into `archive` while the current object is
`cur`: when the stored `(blockHint, bytesTotal)` matches the current
configuration, rebuild the archive via `restoreArchive` and, if it
accounts for exactly `bytesTotal` bytes, adopt its processed count and
its finished and available sets; otherwise (and on a configuration
mismatch) keep the current state — open does not fail. -/
def openRestore (cur archive : RangeFileMeta) : RangeFileMeta :=
  if archive._blockHint = cur._blockHint ∧ archive._bytesTotal = cur._bytesTotal then
    let a := restoreArchive archive
    if metaValid a then
      { cur with _bytesProcessed := a._bytesProcessed,
                 _finishedRanges := a._finishedRanges,
                 _availableRanges := a._availableRanges }
    else cur
  else cur

/-- The transport-error codes (`cpr::ErrorCode`) distinguished by
`HandleRequestError`; `OTHER` stands for every remaining code, which the
source handles in its `default` branch. -/
inductive CprErrorCode
| OK
| ABORTED_BY_CALLBACK
| AGAIN
| SEND_ERROR
| RECV_ERROR
| COULDNT_RESOLVE_HOST
| COULDNT_CONNECT
| PROXY
| OPERATION_TIMEDOUT
| SSL_CONNECT_ERROR
| UNKNOWN_ERROR
| GOT_NOTHING
| OTHER
deriving DecidableEq, Repr

/-- `HandleRequestError(response, fserr, flag, error)`: returns
`(fatal, written)` where `fatal` is the C++ return value and `written`
is the error code assigned to the out-parameter `error` (`none` when the
function leaves `error` untouched).  A pending filesystem error is
returned as fatal unconditionally; an abort is fatal and records
`kOperationInterrupted` only when the flag says cancelled; the listed
transport errors are non-fatal `kNetworkError`; with a clean transport,
200/206 succeed, 404 is fatal `kFileNotFound`, 503 is fatal
`kServerError`, other `≥ 400` are non-fatal `kOperationFailed`; any
other transport code is non-fatal `kRuntimeError`. -/
def HandleRequestError (statusCode : Int) (code : CprErrorCode)
    (fserr : Option Int) (flag : Int) : Bool × Option Int :=
  match fserr with
  | some e => (true, some e)
  | none =>
    match code with
    | .ABORTED_BY_CALLBACK | .AGAIN =>
      (true, if flag = kCancelled then some kOperationInterrupted else none)
    | .SEND_ERROR | .RECV_ERROR | .COULDNT_RESOLVE_HOST | .COULDNT_CONNECT
    | .PROXY | .OPERATION_TIMEDOUT | .SSL_CONNECT_ERROR =>
      (false, some kNetworkError)
    | .UNKNOWN_ERROR | .GOT_NOTHING => (false, some kNetworkError)
    | .OK =>
      if statusCode = 200 ∨ statusCode = 206 then (false, none)
      else if statusCode = 404 then (true, some kFileNotFound)
      else if statusCode = 503 then (true, some kServerError)
      else if 400 ≤ statusCode then (false, some kOperationFailed)
      else (false, none)
    | .OTHER => (false, some kRuntimeError)

/-- `file_attribute` (downloader.h): the probe result.  A default
constructed value has unknown length `-1` and empty header fields. -/
structure file_attribute where
  contentLength : Int := -1
  contentRange : String := ""
  acceptRanges : String := ""
  header : String := ""
deriving DecidableEq, Repr

/-- The direct-vs-multi decision of `DownloadFile`: the probe runs only
when `connections > 1` (otherwise the attribute keeps its default with
`contentLength = -1`), and direct mode is chosen when the length is
unknown, no larger than `blockSize`, the server advertises no range
support, or the known length is positive and under 10 MiB. -/
def DownloadFileIsDirect (connections blockSize : Int) (probed : file_attribute) : Bool :=
  let attr := if 1 < connections then probed else {}
  let is_small := 0 < attr.contentLength && attr.contentLength < 10 * 1024 * 1024
  attr.contentLength = -1 || attr.contentLength ≤ blockSize
    || attr.acceptRanges = "" || is_small

/-- Byte `b` lies inside the bounds of `r`. -/
def coversB (r : Range2) (b : Int) : Bool := r.start ≤ b && b ≤ r.end_

/-- How many members of `L` (with multiplicity) contain byte `b`. -/
def countCover (L : List Range2) (b : Int) : Int :=
  (L.map (fun r => if coversB r b then (1 : Int) else 0)).sum

/-- All members of the three interval sets of `rf`, available then
allocated then finished. -/
def allRanges (rf : RangeFileMeta) : List Range2 :=
  rf._availableRanges ++ rf._allocateRanges ++ rf._finishedRanges

/-- The members of `A` and the members of `B` cover disjoint sets of bytes. -/
def DisjointBytes (A B : List Range2) : Prop :=
  ∀ b : Int, ¬ ((∃ r ∈ A, coversB r b) ∧ (∃ r ∈ B, coversB r b))

/-- The states legally reachable from a freshly reserved
`RangeFile(total, hint)` by completed `allocate` calls, legal `fill`
calls (on a range handed out by `allocate` and still allocated, writing
at least one byte and never overshooting the range), and legal
`deallocate` calls (on the caller's copy of a still-allocated range,
which after the mirroring in `fill` coincides with the canonical
member). -/
inductive Reach (total hint : Int) : RangeFileMeta → Prop
| init : Reach total hint (freshMeta total hint)
| alloc (rf rf' : RangeFileMeta) (res : Option Range2) (fuel : Nat) :
    Reach total hint rf → allocate fuel rf = some (rf', res) → Reach total hint rf'
| fillStep (rf rf' : RangeFileMeta) (r r' : Range2) (n : Int) :
    Reach total hint rf → r ∈ rf._allocateRanges → 1 ≤ n →
    r.position + n ≤ r.end_ + 1 → fill rf r n = (rf', r') → Reach total hint rf'
| dealloc (rf rf' : RangeFileMeta) (r : Range2) (b : Bool) :
    Reach total hint rf → r ∈ rf._allocateRanges →
    deallocate rf r = (rf', b) → Reach total hint rf'

/-- State discipline of a canonical allocated member: `kPending` sits at
its start, `kPartial` strictly inside, `kFilled` one past its end, and
`kUnfilled` never occurs in the allocated set. -/
def AllocSt (r : Range2) : Prop :=
  (r.state = RState.kPending → r.position = r.start) ∧
  (r.state = RState.kPartial → r.start < r.position ∧ r.position ≤ r.end_) ∧
  (r.state = RState.kFilled → r.position = r.end_ + 1) ∧
  r.state ≠ RState.kUnfilled

/-- The inductive invariant of the range engine: the total is recorded,
every tracked interval is valid, allocated members obey the state
discipline, and every byte of `[0, total-1]` is covered by exactly one
member of the three sets (and no byte outside is covered at all). -/
def StateInv (total : Int) (rf : RangeFileMeta) : Prop :=
  rf._bytesTotal = total ∧
  (∀ r ∈ allRanges rf, r.toRange.valid = true) ∧
  (∀ r ∈ rf._allocateRanges, AllocSt r) ∧
  (∀ b : Int, countCover (allRanges rf) b = if 0 ≤ b ∧ b < total then 1 else 0)

/-- The shape of the chunk list produced by a terminating run of the
tiling loop from start `s`: consecutive chunks of exactly `hint` bytes,
the last one ending at `total - 1` and allowed to be shorter.  The
bounds `0 ≤ s ≤ total - 1` (and `2 ≤ hint` for a non-final chunk) are
carried so the chunks are valid. -/
inductive TileChain (hint total : Int) : Int → List Range2 → Prop
| last (s : Int) : 0 ≤ s → s ≤ total - 1 → min (s + hint - 1) (total - 1) = total - 1 →
    TileChain hint total s [⟨⟨s, total - 1⟩, 0, .kUnfilled⟩]
| cons (s : Int) (T : List Range2) : 0 ≤ s → 2 ≤ hint →
    min (s + hint - 1) (total - 1) = s + hint - 1 → s + hint - 1 < total - 1 →
    TileChain hint total (s + hint) T →
    TileChain hint total s (⟨⟨s, s + hint - 1⟩, 0, .kUnfilled⟩ :: T)

/-! ### Basic lemmas about coverage counting and the set model -/

theorem countCover_nil (b : Int) : countCover [] b = 0 := rfl

theorem countCover_cons (x : Range2) (L : List Range2) (b : Int) :
    countCover (x :: L) b = (if coversB x b then (1 : Int) else 0) + countCover L b := by
  simp [countCover]

theorem countCover_append (A B : List Range2) (b : Int) :
    countCover (A ++ B) b = countCover A b + countCover B b := by
  simp [countCover]

theorem countCover_nonneg (L : List Range2) (b : Int) : 0 ≤ countCover L b := by
  induction L with
  | nil => simp [countCover]
  | cons x xs ih =>
    rw [countCover_cons]
    by_cases h : coversB x b <;> simp [h] <;> omega

theorem countCover_ge_one (L : List Range2) (r : Range2) (b : Int)
    (hm : r ∈ L) (hc : coversB r b = true) : 1 ≤ countCover L b := by
  induction L with
  | nil => cases hm
  | cons x xs ih =>
    rw [countCover_cons]
    have hx := countCover_nonneg xs b
    rcases List.mem_cons.mp hm with h | h
    · subst h; simp [hc]; omega
    · have := ih h
      by_cases hxb : coversB x b <;> simp [hxb] <;> omega

theorem valid_covers_start (r : Range2) (h : r.toRange.valid = true) :
    coversB r r.start = true := by
  simp [Range.valid] at h
  simp [coversB]
  exact h.2

theorem valid_covers_end (r : Range2) (h : r.toRange.valid = true) :
    coversB r r.end_ = true := by
  simp [Range.valid] at h
  simp [coversB]
  exact h.2

theorem mem_setInsert (L : List Range2) (r x : Range2) (h : x ∈ setInsert L r) :
    x ∈ L ∨ x = r := by
  induction L with
  | nil => simp [setInsert] at h; right; exact h
  | cons y ys ih =>
    simp only [setInsert] at h
    split at h
    · rcases List.mem_cons.mp h with h | h
      · right; exact h
      · left; exact h
    · split at h
      · rcases List.mem_cons.mp h with h | h
        · left; rw [h]; exact List.mem_cons_self y ys
        · rcases ih h with h | h
          · left; exact List.mem_cons_of_mem y h
          · right; exact h
      · left; exact h

theorem mem_setInsert_of_mem (L : List Range2) (r x : Range2) (h : x ∈ L) :
    x ∈ setInsert L r := by
  induction L with
  | nil => cases h
  | cons y ys ih =>
    simp only [setInsert]
    split
    · exact List.mem_cons_of_mem r h
    · split
      · rcases List.mem_cons.mp h with h | h
        · exact h ▸ List.mem_cons_self y (setInsert ys r)
        · exact List.mem_cons_of_mem y (ih h)
      · exact h

theorem self_mem_setInsert (L : List Range2) (r : Range2)
    (h : ∀ x ∈ L, x.start ≠ r.start) : r ∈ setInsert L r := by
  induction L with
  | nil => simp [setInsert]
  | cons y ys ih =>
    simp only [setInsert]
    split
    · exact List.mem_cons_self r (y :: ys)
    · split
      · refine List.mem_cons_of_mem y (ih ?_)
        intro x hx; exact h x (List.mem_cons_of_mem y hx)
      · exfalso
        have := h y (List.mem_cons_self y ys)
        omega

theorem setInsert_count (L : List Range2) (r : Range2) (b : Int)
    (h : ∀ x ∈ L, x.start ≠ r.start) :
    countCover (setInsert L r) b = (if coversB r b then (1 : Int) else 0) + countCover L b := by
  induction L with
  | nil => simp [setInsert, countCover]
  | cons y ys ih =>
    simp only [setInsert]
    split
    · rw [countCover_cons]
    · split
      · rw [countCover_cons, countCover_cons,
          ih (fun x hx => h x (List.mem_cons_of_mem y hx))]
        ring
      · exfalso
        have := h y (List.mem_cons_self y ys)
        omega

theorem setInsert_eq_append (L : List Range2) (r : Range2)
    (h : ∀ x ∈ L, x.start < r.start) : setInsert L r = L ++ [r] := by
  induction L with
  | nil => rfl
  | cons y ys ih =>
    have hy := h y (List.mem_cons_self y ys)
    simp only [setInsert]
    rw [if_neg (by omega), if_pos hy, ih (fun x hx => h x (List.mem_cons_of_mem y hx))]
    rfl

theorem setInsert_eq_cons (L : List Range2) (r : Range2)
    (h : ∀ x ∈ L, r.start < x.start) : setInsert L r = r :: L := by
  cases L with
  | nil => rfl
  | cons y ys =>
    have hy := h y (List.mem_cons_self y ys)
    simp only [setInsert]
    rw [if_pos hy]

theorem setFindStart_isSome_of_mem (L : List Range2) (r : Range2) (h : r ∈ L) :
    (setFindStart L r.start).isSome = true := by
  induction L with
  | nil => cases h
  | cons y ys ih =>
    simp only [setFindStart]
    split
    · rfl
    · rcases List.mem_cons.mp h with h | h
      · subst h; simp_all
      · exact ih h

/-- In a list with pairwise distinct starts, a member splits the list
with no other occurrence of its start to the left. -/
theorem mem_decomp_unique_start (L : List Range2) (r : Range2)
    (hp : List.Pairwise (fun a b => a.start ≠ b.start) L) (hm : r ∈ L) :
    ∃ l1 l2, L = l1 ++ r :: l2 ∧ (∀ x ∈ l1, x.start ≠ r.start) := by
  induction L with
  | nil => cases hm
  | cons y ys ih =>
    rcases List.mem_cons.mp hm with h | h
    · exact ⟨[], ys, by simp [h], by intro x hx; cases hx⟩
    · have hp' := (List.pairwise_cons.mp hp).2
      obtain ⟨l1, l2, hsplit, hl1⟩ := ih hp' h
      refine ⟨y :: l1, l2, by simp [hsplit], ?_⟩
      intro x hx
      rcases List.mem_cons.mp hx with hx | hx
      · subst hx
        exact (List.pairwise_cons.mp hp).1 r h
      · exact hl1 x hx

theorem setErase_append (l1 l2 : List Range2) (r : Range2)
    (h : ∀ x ∈ l1, x.start ≠ r.start) :
    setErase (l1 ++ r :: l2) r.start = l1 ++ l2 := by
  induction l1 with
  | nil => simp [setErase]
  | cons y ys ih =>
    have hy := h y (List.mem_cons_self y ys)
    show (if y.start = r.start then ys ++ r :: l2
          else y :: setErase (ys ++ r :: l2) r.start) = y :: ys ++ l2
    rw [if_neg hy, ih (fun x hx => h x (List.mem_cons_of_mem y hx))]
    rfl

theorem setUpdate_append (l1 l2 : List Range2) (r r2 : Range2)
    (h : ∀ x ∈ l1, x.start ≠ r.start) (hs : r2.start = r.start) :
    setUpdate (l1 ++ r :: l2) r2
      = l1 ++ { r with state := r2.state, position := r2.position } :: l2 := by
  induction l1 with
  | nil => simp [setUpdate, hs]
  | cons y ys ih =>
    have hy := h y (List.mem_cons_self y ys)
    show (if y.start = r2.start then { y with state := r2.state, position := r2.position } :: (ys ++ r :: l2)
          else y :: setUpdate (ys ++ r :: l2) r2)
        = y :: ys ++ { r with state := r2.state, position := r2.position } :: l2
    rw [if_neg (by omega), ih (fun x hx => h x (List.mem_cons_of_mem y hx))]
    rfl

/-! ### Intersection, disjointness and the coalescing walk -/

theorem intersected_iff (a b : Range) :
    a.intersected b = true ↔ b.start ≤ a.end_ ∧ a.start ≤ b.end_ := by
  simp [Range.intersected]

theorem intersected_of_both_cover (a b : Range2) (m : Int)
    (ha : coversB a m = true) (hb : coversB b m = true) :
    a.toRange.intersected b.toRange = true := by
  simp [coversB] at ha hb
  rw [intersected_iff]
  omega

theorem covers_max_of_intersected (a b : Range2)
    (ha : a.toRange.valid = true) (hb : b.toRange.valid = true)
    (h : a.toRange.intersected b.toRange = true) :
    coversB a (max a.start b.start) = true ∧ coversB b (max a.start b.start) = true := by
  rw [intersected_iff] at h
  simp [Range.valid] at ha hb
  simp [coversB]
  omega

theorem countCover_tail_le (x : Range2) (xs : List Range2) (b : Int) :
    countCover xs b ≤ countCover (x :: xs) b := by
  rw [countCover_cons]
  by_cases h : coversB x b <;> simp [h]

/-- When no byte is multiply covered, the valid members are pairwise
non-intersecting. -/
theorem pairwise_nonintersect (L : List Range2)
    (hv : ∀ r ∈ L, r.toRange.valid = true)
    (hc : ∀ b : Int, countCover L b ≤ 1) :
    List.Pairwise (fun a b => a.toRange.intersected b.toRange = false) L := by
  induction L with
  | nil => exact List.Pairwise.nil
  | cons x xs ih =>
    refine List.pairwise_cons.mpr ⟨?_, ih (fun r hr => hv r (List.mem_cons_of_mem x hr)) ?_⟩
    · intro y hy
      by_contra hne
      have hi : x.toRange.intersected y.toRange = true := by
        cases h : x.toRange.intersected y.toRange
        · exact absurd h hne
        · rfl
      have hxv := hv x (List.mem_cons_self x xs)
      have hyv := hv y (List.mem_cons_of_mem x hy)
      obtain ⟨hcx, hcy⟩ := covers_max_of_intersected x y hxv hyv hi
      have h1 := countCover_ge_one xs y (max x.start y.start) hy hcy
      have h2 := countCover_cons x xs (max x.start y.start)
      have h3 := hc (max x.start y.start)
      rw [hcx] at h2
      simp at h2
      omega
    · intro b
      have := countCover_tail_le x xs b
      have := hc b
      omega

/-- Pairwise non-intersecting valid members have pairwise distinct starts. -/
theorem pairwise_start_ne (L : List Range2)
    (hv : ∀ r ∈ L, r.toRange.valid = true)
    (hp : List.Pairwise (fun a b => a.toRange.intersected b.toRange = false) L) :
    List.Pairwise (fun a b => a.start ≠ b.start) L := by
  refine List.Pairwise.imp_of_mem ?_ hp
  intro a b ha hb hni hstart
  have h1 := valid_covers_start a (hv a ha)
  have h2 := valid_covers_start b (hv b hb)
  rw [hstart] at h1
  have h3 := intersected_of_both_cover a b b.start h1 h2
  rw [h3] at hni
  cases hni

/-- One step of the coalescing walk: coverage is preserved and validity
of the members is maintained, for valid pairwise-disjoint input. -/
theorem mergeAux_spec (L : List Range2) : ∀ (last : Range2),
    (∀ x ∈ last :: L, x.toRange.valid = true) →
    List.Pairwise (fun a b => a.toRange.intersected b.toRange = false) (last :: L) →
    (∀ b : Int, countCover (mergeAux last L) b = countCover (last :: L) b) ∧
    (∀ x ∈ mergeAux last L, x.toRange.valid = true) := by
  induction L with
  | nil =>
    intro last hv hp
    exact ⟨fun b => rfl, hv⟩
  | cons r rest ih =>
    intro last hv hp
    have hlv : last.toRange.valid = true := hv last (List.mem_cons_self _ _)
    have hrv : r.toRange.valid = true := hv r (List.mem_cons_of_mem _ (List.mem_cons_self _ _))
    have hpl := List.pairwise_cons.mp hp
    have hplr : last.toRange.intersected r.toRange = false :=
      hpl.1 r (List.mem_cons_self _ _)
    have hpr := List.pairwise_cons.mp hpl.2
    have hstep : mergeAux last (r :: rest)
        = if last.toRange.mergeable r.toRange then
            mergeAux ⟨last.toRange.add r.toRange, max last.position r.position, last.state⟩ rest
          else last :: mergeAux r rest := by
      simp only [mergeAux, hlv, Bool.not_true]
      rfl
    by_cases hm : last.toRange.mergeable r.toRange = true
    · -- mergeable but (by disjointness) not intersecting: the two are adjacent
      rw [hstep, if_pos hm]
      have hlv' := hlv
      have hrv' := hrv
      simp [Range.valid] at hlv' hrv'
      have hni' : last.end_ < r.start ∨ r.end_ < last.start := by
        have := (not_iff_not.mpr (intersected_iff last.toRange r.toRange)).mp (by simp [hplr])
        omega
      have hm' : (last.start - r.end_).natAbs = 1 ∨ (last.end_ - r.start).natAbs = 1 := by
        simp [Range.mergeable, hlv, hrv, hplr] at hm
        exact hm
      have hadj : last.end_ + 1 = r.start ∨ r.end_ + 1 = last.start := by omega
      have hu : last.toRange.add r.toRange
          = if last.start < r.start then ⟨last.start, r.end_⟩ else ⟨r.start, last.end_⟩ := by
        unfold Range.add
        rw [if_pos hm, if_neg (by simp [hplr])]
        by_cases hlt : last.start < r.start
        · rw [if_pos hlt, if_pos (by simp [Range.lt, hlt])]
        · rw [if_neg hlt, if_neg (by simp [Range.lt]; omega)]
      set u2 : Range2 := ⟨last.toRange.add r.toRange, max last.position r.position, last.state⟩
        with hu2
      have hu2v : u2.toRange.valid = true := by
        simp only [hu2, hu]
        by_cases hlt : last.start < r.start <;> simp [hlt, Range.valid] <;> omega
      have hu2cov : ∀ m : Int, (if coversB u2 m then (1 : Int) else 0)
          = (if coversB last m then (1 : Int) else 0) + (if coversB r m then (1 : Int) else 0) := by
        intro m
        have hb2 : coversB u2 m = (decide (u2.start ≤ m) && decide (m ≤ u2.end_)) := rfl
        simp only [hu2, hu] at hb2 ⊢
        by_cases hlt : last.start < r.start
        · simp only [if_pos hlt] at hb2 ⊢
          simp [coversB] at *
          split_ifs <;> omega
        · simp only [if_neg hlt] at hb2 ⊢
          simp [coversB] at *
          split_ifs <;> omega
      have hnext : ∀ x ∈ rest, u2.toRange.intersected x.toRange = false := by
        intro x hx
        have h1 : last.toRange.intersected x.toRange = false :=
          hpl.1 x (List.mem_cons_of_mem _ hx)
        have h2 : r.toRange.intersected x.toRange = false := hpr.1 x hx
        have hxv := hv x (List.mem_cons_of_mem _ (List.mem_cons_of_mem _ hx))
        simp [Range.valid] at hxv
        have h1' := (not_iff_not.mpr (intersected_iff last.toRange x.toRange)).mp (by simp [h1])
        have h2' := (not_iff_not.mpr (intersected_iff r.toRange x.toRange)).mp (by simp [h2])
        cases h3 : u2.toRange.intersected x.toRange
        · rfl
        · exfalso
          have h3' := (intersected_iff u2.toRange x.toRange).mp h3
          simp only [hu2, hu] at h3'
          by_cases hlt : last.start < r.start
          · simp only [if_pos hlt] at h3'; omega
          · simp only [if_neg hlt] at h3'; omega
      have hv2 : ∀ x ∈ u2 :: rest, x.toRange.valid = true := by
        intro x hx
        rcases List.mem_cons.mp hx with hx | hx
        · rw [hx]; exact hu2v
        · exact hv x (List.mem_cons_of_mem _ (List.mem_cons_of_mem _ hx))
      have hp2 : List.Pairwise (fun a b => a.toRange.intersected b.toRange = false) (u2 :: rest) :=
        List.pairwise_cons.mpr ⟨hnext, hpr.2⟩
      obtain ⟨ihc, ihv⟩ := ih u2 hv2 hp2
      refine ⟨?_, ihv⟩
      intro b
      rw [ihc b, countCover_cons, countCover_cons, countCover_cons, hu2cov b]
      ring
    · rw [hstep, if_neg hm]
      have hv2 : ∀ x ∈ r :: rest, x.toRange.valid = true :=
        fun x hx => hv x (List.mem_cons_of_mem _ hx)
      obtain ⟨ihc, ihv⟩ := ih r hv2 hpl.2
      constructor
      · intro b
        rw [countCover_cons, ihc b, countCover_cons last (r :: rest) b]
      · intro x hx
        rcases List.mem_cons.mp hx with hx | hx
        · rw [hx]; exact hlv
        · exact ihv x hx

/-- `mergeRanges` on a nonempty valid pairwise-disjoint set preserves
byte coverage and validity of the members. -/
theorem mergeRangesList_spec (x : Range2) (xs : List Range2)
    (hv : ∀ r ∈ x :: xs, r.toRange.valid = true)
    (hp : List.Pairwise (fun a b => a.toRange.intersected b.toRange = false) (x :: xs)) :
    (∀ b : Int, countCover (mergeRangesList (x :: xs)) b = countCover (x :: xs) b) ∧
    (∀ r ∈ mergeRangesList (x :: xs), r.toRange.valid = true) := by
  have hstep : mergeRangesList (x :: xs) = mergeAux x xs := by
    simp [mergeRangesList, mergeAux, Range.valid]
  rw [hstep]
  exact mergeAux_spec xs x hv hp

/-! ### The tiling loop -/

theorem range2_mk_start (a b p : Int) (st : RState) :
    (⟨⟨a, b⟩, p, st⟩ : Range2).start = a := rfl

theorem range2_mk_end (a b p : Int) (st : RState) :
    (⟨⟨a, b⟩, p, st⟩ : Range2).end_ = b := rfl

theorem range2_mk_position (a b p : Int) (st : RState) :
    (⟨⟨a, b⟩, p, st⟩ : Range2).position = p := rfl

theorem range2_mk_state (a b p : Int) (st : RState) :
    (⟨⟨a, b⟩, p, st⟩ : Range2).state = st := rfl

/-- With `blockHint ≤ 1` (and a file of at least two bytes, or any file
with `blockHint ≤ 0`), the tiling loop never advances past offset zero
and therefore never exits: the `do/while` in `allocate` spins forever. -/
theorem tileLoop_stuck (hint total : Int) (h1 : 1 ≤ total) (h2 : hint ≤ 1)
    (h3 : hint ≤ 0 ∨ 2 ≤ total) :
    ∀ (fuel : Nat) (last : Range2) (acc : List Range2), last.end_ ≤ 0 →
      tileLoop hint total fuel last acc = none := by
  intro fuel
  induction fuel with
  | zero => intro last acc h; rfl
  | succ n ih =>
    intro last acc hle
    simp only [tileLoop]
    rw [if_neg (show ¬ 0 < last.end_ by omega)]
    rw [if_pos (show min (0 + hint - 1) (total - 1) < total - 1 by omega)]
    exact ih _ _ (by simp; omega)

/-- The tiling loop is fuel-monotone: once it exits within `f1`
iterations, any larger fuel yields the same result. -/
theorem tileLoop_mono (hint total : Int) :
    ∀ (f1 f2 : Nat) (last : Range2) (acc L : List Range2),
      tileLoop hint total f1 last acc = some L → f1 ≤ f2 →
      tileLoop hint total f2 last acc = some L := by
  intro f1
  induction f1 with
  | zero => intro f2 last acc L h; cases h
  | succ n ih =>
    intro f2 last acc L h hle
    obtain ⟨m, rfl⟩ : ∃ m, f2 = m + 1 := ⟨f2 - 1, by omega⟩
    simp only [tileLoop] at h ⊢
    split_ifs at h ⊢
    all_goals first
    | exact ih m _ _ _ h (by omega)
    | exact h

/-- One unfolding of the tiling loop from a running chunk that ends at
`e ≥ 1`. -/
theorem tileLoop_unfold (hint total : Int) (n : Nat) (e a : Int) (acc : List Range2)
    (h1 : 1 ≤ e) :
    tileLoop hint total (n + 1) ⟨⟨a, e⟩, 0, .kUnfilled⟩ acc
      = (if min (e + hint) (total - 1) < total - 1
         then tileLoop hint total n ⟨⟨e + 1, min (e + hint) (total - 1)⟩, 0, .kUnfilled⟩
                (setInsert acc ⟨⟨e + 1, min (e + hint) (total - 1)⟩, 0, .kUnfilled⟩)
         else some (setInsert acc ⟨⟨e + 1, min (e + hint) (total - 1)⟩, 0, .kUnfilled⟩)) := by
  simp only [tileLoop, range2_mk_end, range2_mk_position, range2_mk_state]
  rw [if_pos (show (0:Int) < e by omega)]
  have harith : e + 1 + hint - 1 = e + hint := by ring
  rw [harith]

/-- Iterating the tiling loop from a chunk ending at `e ≥ 1` with
`blockHint ≥ 2` exits within `total - 1 - e` iterations and appends a
`TileChain` starting at `e + 1` to the accumulated set. -/
theorem tileLoop_chain (hint total : Int) (hh : 2 ≤ hint) :
    ∀ (fuel : Nat) (e a : Int) (acc : List Range2),
      1 ≤ e → e < total - 1 → (total - 1 - e).toNat ≤ fuel →
      (∀ x ∈ acc, x.start < e + 1) →
      ∃ T, tileLoop hint total fuel ⟨⟨a, e⟩, 0, .kUnfilled⟩ acc = some (acc ++ T) ∧
        TileChain hint total (e + 1) T := by
  intro fuel
  induction fuel with
  | zero => intro e a acc h1 h2 h3 h4; omega
  | succ n ih =>
    intro e a acc h1 h2 h3 h4
    rw [tileLoop_unfold hint total n e a acc h1]
    by_cases hc : min (e + hint) (total - 1) < total - 1
    · have hmin : min (e + hint) (total - 1) = e + hint := by omega
      rw [hmin] at hc ⊢
      rw [if_pos hc]
      have hins : setInsert acc ⟨⟨e + 1, e + hint⟩, 0, .kUnfilled⟩
          = acc ++ [⟨⟨e + 1, e + hint⟩, 0, .kUnfilled⟩] :=
        setInsert_eq_append _ _ (by
          intro x hx
          rw [range2_mk_start]
          exact h4 x hx)
      rw [hins]
      obtain ⟨T, hT, hTC⟩ := ih (e + hint) (e + 1)
        (acc ++ [⟨⟨e + 1, e + hint⟩, 0, .kUnfilled⟩])
        (by omega) (by omega) (by omega)
        (by
          intro x hx
          rcases List.mem_append.mp hx with hx | hx
          · have := h4 x hx; omega
          · simp only [List.mem_singleton] at hx
            rw [hx, range2_mk_start]; omega)
      refine ⟨⟨⟨e + 1, e + hint⟩, 0, .kUnfilled⟩ :: T, ?_, ?_⟩
      · rw [hT, List.append_assoc]
        rfl
      · have hTC2 := @TileChain.cons hint total (e + 1) T (by omega) hh (by omega) (by omega)
          (by rw [show e + 1 + hint = e + hint + 1 by ring]; exact hTC)
        rw [show e + 1 + hint - 1 = e + hint by ring] at hTC2
        exact hTC2
    · have hmin : min (e + hint) (total - 1) = total - 1 := by omega
      rw [hmin] at hc ⊢
      have hins : setInsert acc ⟨⟨e + 1, total - 1⟩, 0, .kUnfilled⟩
          = acc ++ [⟨⟨e + 1, total - 1⟩, 0, .kUnfilled⟩] :=
        setInsert_eq_append _ _ (by
          intro x hx
          rw [range2_mk_start]
          exact h4 x hx)
      rw [if_neg hc, hins]
      refine ⟨[⟨⟨e + 1, total - 1⟩, 0, .kUnfilled⟩], rfl, ?_⟩
      exact TileChain.last (e + 1) (by omega) (by omega) (by omega)

/-- From the entry state of the tiling loop (`last = {0,0}`, empty set),
with `blockHint ≥ 1` and either `blockHint ≥ 2` or a one-byte file, the
loop exits within `bytesTotal` iterations and produces a `TileChain`
covering the file from offset `0`. -/
theorem tileLoop_entry (hint total : Int) (h1 : 1 ≤ total) (hh1 : 1 ≤ hint)
    (hok : 2 ≤ hint ∨ total = 1) :
    ∀ fuel : Nat, total.toNat ≤ fuel →
      ∃ T, tileLoop hint total fuel ⟨⟨0, 0⟩, 0, .kUnfilled⟩ [] = some T ∧
        TileChain hint total 0 T := by
  intro fuel hf
  obtain ⟨n, rfl⟩ : ∃ n, fuel = n + 1 := ⟨fuel - 1, by omega⟩
  simp only [tileLoop, range2_mk_end, range2_mk_position, range2_mk_state]
  rw [if_neg (show ¬ (0:Int) < 0 by omega)]
  by_cases hc : min (0 + hint - 1) (total - 1) < total - 1
  · have h2 : 2 ≤ hint := by
      rcases hok with h | h
      · exact h
      · omega
    have hmin : min (0 + hint - 1) (total - 1) = hint - 1 := by omega
    rw [hmin] at hc ⊢
    rw [if_pos hc]
    have hstep : setInsert [] ⟨⟨0, hint - 1⟩, 0, .kUnfilled⟩
        = [⟨⟨0, hint - 1⟩, 0, .kUnfilled⟩] := rfl
    rw [hstep]
    obtain ⟨T, hT, hTC⟩ := tileLoop_chain hint total h2 n (hint - 1) 0
      [⟨⟨0, hint - 1⟩, 0, .kUnfilled⟩]
      (by omega) (by omega) (by omega)
      (by
        intro x hx
        simp only [List.mem_singleton] at hx
        rw [hx, range2_mk_start]; omega)
    refine ⟨⟨⟨0, hint - 1⟩, 0, .kUnfilled⟩ :: T, by rw [hT]; rfl, ?_⟩
    have hTC2 := @TileChain.cons hint total 0 T (by omega) h2 (by omega) (by omega)
      (by rw [show (0:Int) + hint = hint - 1 + 1 by ring]; exact hTC)
    rw [show (0:Int) + hint - 1 = hint - 1 by ring] at hTC2
    exact hTC2
  · have hmin : min (0 + hint - 1) (total - 1) = total - 1 := by omega
    rw [hmin] at hc ⊢
    rw [if_neg hc]
    exact ⟨[⟨⟨0, total - 1⟩, 0, .kUnfilled⟩], rfl,
      TileChain.last 0 (by omega) (by omega) (by omega)⟩

/-- Whenever the tiling loop exits from its entry state, the produced
available set is a `TileChain` from offset `0` (in particular the hint
must have been at least `2`, or the file a single byte). -/
theorem tileLoop_entry_chain (hint total : Int) (h1 : 1 ≤ total)
    (fuel : Nat) (L : List Range2)
    (h : tileLoop hint total fuel ⟨⟨0, 0⟩, 0, .kUnfilled⟩ [] = some L) :
    TileChain hint total 0 L := by
  have hh : 1 ≤ hint ∧ (2 ≤ hint ∨ total = 1) := by
    by_contra hcon
    have hstuck : hint ≤ 1 ∧ (hint ≤ 0 ∨ 2 ≤ total) := by omega
    have hnone := tileLoop_stuck hint total h1 hstuck.1 hstuck.2 fuel
      ⟨⟨0, 0⟩, 0, .kUnfilled⟩ [] (le_refl 0)
    rw [hnone] at h
    cases h
  obtain ⟨T, hT, hTC⟩ := tileLoop_entry hint total h1 hh.1 hh.2
    (max fuel total.toNat) (le_max_right _ _)
  have h2 := tileLoop_mono hint total fuel (max fuel total.toNat) _ _ _ h (le_max_left _ _)
  rw [h2] at hT
  injection hT with hT
  rw [hT]
  exact hTC

/-! ### Consequences of the tile-chain shape -/

theorem tileChain_cover (hint total : Int) (s : Int) (T : List Range2)
    (h : TileChain hint total s T) :
    ∀ b : Int, countCover T b = if s ≤ b ∧ b < total then 1 else 0 := by
  induction h with
  | last s h0 h1 h2 =>
    intro b
    rw [countCover_cons]
    rw [countCover_nil]
    simp only [coversB, range2_mk_start, range2_mk_end]
    simp only [Bool.and_eq_true, decide_eq_true_eq]
    split_ifs <;> omega
  | cons s T h0 hhint hmin hlt hchain ih =>
    intro b
    rw [countCover_cons, ih b]
    simp only [coversB, range2_mk_start, range2_mk_end]
    simp only [Bool.and_eq_true, decide_eq_true_eq]
    split_ifs <;> omega

theorem tileChain_valid (hint total : Int) (s : Int) (T : List Range2)
    (h : TileChain hint total s T) :
    ∀ r ∈ T, r.toRange.valid = true := by
  induction h with
  | last s h0 h1 h2 =>
    intro r hr
    simp only [List.mem_singleton] at hr
    rw [hr]
    simp [Range.valid]
    omega
  | cons s T h0 hhint hmin hlt hchain ih =>
    intro r hr
    rcases List.mem_cons.mp hr with hr | hr
    · rw [hr]
      simp [Range.valid]
      omega
    · exact ih r hr

theorem tileChain_pos_state (hint total : Int) (s : Int) (T : List Range2)
    (h : TileChain hint total s T) :
    ∀ r ∈ T, r.position = 0 ∧ r.state = RState.kUnfilled := by
  induction h with
  | last s h0 h1 h2 =>
    intro r hr
    simp only [List.mem_singleton] at hr
    rw [hr]
    exact ⟨rfl, rfl⟩
  | cons s T h0 hhint hmin hlt hchain ih =>
    intro r hr
    rcases List.mem_cons.mp hr with hr | hr
    · rw [hr]; exact ⟨rfl, rfl⟩
    · exact ih r hr

theorem tileChain_start_lb (hint total : Int) (s : Int) (T : List Range2)
    (h : TileChain hint total s T) :
    ∀ r ∈ T, s ≤ r.start := by
  induction h with
  | last s h0 h1 h2 =>
    intro r hr
    simp only [List.mem_singleton] at hr
    rw [hr, range2_mk_start]
  | cons s T h0 hhint hmin hlt hchain ih =>
    intro r hr
    rcases List.mem_cons.mp hr with hr | hr
    · rw [hr, range2_mk_start]
    · have := ih r hr
      omega

theorem tileChain_head (hint total : Int) (s : Int) (T : List Range2)
    (h : TileChain hint total s T) :
    ∃ c T2, T = c :: T2 ∧ c.start = s ∧ c.end_ = min (s + hint - 1) (total - 1)
      ∧ c.position = 0 ∧ c.state = RState.kUnfilled := by
  induction h with
  | last s h0 h1 h2 =>
    exact ⟨_, _, rfl, rfl, by rw [range2_mk_end, h2], rfl, rfl⟩
  | cons s T h0 hhint hmin hlt hchain ih =>
    exact ⟨_, _, rfl, rfl, by rw [range2_mk_end, hmin], rfl, rfl⟩


/-! ### The engine invariant and its preservation -/

theorem mem_allRanges_of_avail (rf : RangeFileMeta) (x : Range2)
    (h : x ∈ rf._availableRanges) : x ∈ allRanges rf :=
  List.mem_append_left _ (List.mem_append_left _ h)

theorem mem_allRanges_of_alloc (rf : RangeFileMeta) (x : Range2)
    (h : x ∈ rf._allocateRanges) : x ∈ allRanges rf :=
  List.mem_append_left _ (List.mem_append_right _ h)

theorem mem_allRanges_of_fin (rf : RangeFileMeta) (x : Range2)
    (h : x ∈ rf._finishedRanges) : x ∈ allRanges rf :=
  List.mem_append_right _ h

theorem setInsert_ne_nil (L : List Range2) (r : Range2) : setInsert L r ≠ [] := by
  cases L with
  | nil => simp [setInsert]
  | cons x xs =>
    simp only [setInsert]
    split_ifs <;> simp

/-- The three per-set coverage counts sum to the invariant's coverage. -/
theorem stateInv_cover3 (total : Int) (rf : RangeFileMeta) (h : StateInv total rf) (b : Int) :
    countCover rf._availableRanges b + countCover rf._allocateRanges b
      + countCover rf._finishedRanges b = if 0 ≤ b ∧ b < total then 1 else 0 := by
  have h4 := h.2.2.2 b
  rw [allRanges, countCover_append, countCover_append] at h4
  linarith

theorem stateInv_cover3_le (total : Int) (rf : RangeFileMeta) (h : StateInv total rf) (b : Int) :
    countCover rf._availableRanges b + countCover rf._allocateRanges b
      + countCover rf._finishedRanges b ≤ 1 := by
  have := stateInv_cover3 total rf h b
  split_ifs at this <;> omega

theorem stateInv_alloc_pairwise (total : Int) (rf : RangeFileMeta) (h : StateInv total rf) :
    List.Pairwise (fun a b => a.start ≠ b.start) rf._allocateRanges := by
  refine pairwise_start_ne _ ?_ (pairwise_nonintersect _ ?_ ?_)
  · intro r hr; exact h.2.1 r (mem_allRanges_of_alloc rf r hr)
  · intro r hr; exact h.2.1 r (mem_allRanges_of_alloc rf r hr)
  · intro b
    have := stateInv_cover3_le total rf h b
    have := countCover_nonneg rf._availableRanges b
    have := countCover_nonneg rf._finishedRanges b
    linarith

/-- A completed `allocate` call preserves the engine invariant. -/
theorem stateInv_allocate (total : Int) (htotal : 0 < total) (rf rf' : RangeFileMeta)
    (res : Option Range2) (fuel : Nat) (hInv : StateInv total rf)
    (h : allocate fuel rf = some (rf', res)) : StateInv total rf' := by
  obtain ⟨hbt, hv, hst, hcov⟩ := hInv
  have hne : ¬ (rf._availableRanges.isEmpty && rf._allocateRanges.isEmpty
      && rf._finishedRanges.isEmpty) = true := by
    intro hemp
    simp only [Bool.and_eq_true, List.isEmpty_iff] at hemp
    have h0 := hcov 0
    rw [allRanges, hemp.1.1, hemp.1.2, hemp.2] at h0
    rw [if_pos (by omega)] at h0
    simp [countCover] at h0
  unfold allocate at h
  rw [if_neg (by omega), if_neg hne] at h
  cases hA : rf._availableRanges with
  | nil =>
    rw [hA] at h
    simp only at h
    injection h with h
    injection h with h1 h2
    rw [← h1]
    refine ⟨hbt, ?_, hst, ?_⟩
    · intro r hr
      refine hv r ?_
      rw [allRanges] at hr ⊢
      simp only at hr
      rw [hA]
      simpa using hr
    · intro b
      have := hcov b
      rw [allRanges] at this ⊢
      simp only
      rw [hA] at this
      simpa using this
  | cons c rest =>
    rw [hA] at h
    simp only at h
    injection h with h
    injection h with h1 h2
    have hcv : c.toRange.valid = true :=
      hv c (mem_allRanges_of_avail rf c (by rw [hA]; exact List.mem_cons_self _ _))
    -- a member of the allocated set starting where `c` starts would make
    -- byte `c.start` doubly covered
    have hnostart : ∀ x ∈ rf._allocateRanges, x.start
        ≠ ({ c with state := RState.kPending, position := c.start } : Range2).start := by
      intro x hx heq
      have hxv := hv x (mem_allRanges_of_alloc rf x hx)
      have h1 : (1:Int) ≤ countCover rf._availableRanges c.start := by
        refine countCover_ge_one _ c _ ?_ (valid_covers_start c hcv)
        rw [hA]; exact List.mem_cons_self _ _
      have h2 : (1:Int) ≤ countCover rf._allocateRanges c.start := by
        refine countCover_ge_one _ x _ hx ?_
        have := valid_covers_start x hxv
        simpa [coversB, heq] using this
      have h3 := countCover_nonneg rf._finishedRanges c.start
      have h4 := stateInv_cover3_le total rf ⟨hbt, hv, hst, hcov⟩ c.start
      linarith
    rw [← h1]
    refine ⟨hbt, ?_, ?_, ?_⟩
    · intro r hr
      rw [allRanges] at hr
      simp only at hr
      rcases List.mem_append.mp hr with hr | hr
      · rcases List.mem_append.mp hr with hr | hr
        · exact hv r (mem_allRanges_of_avail rf r (by rw [hA]; exact List.mem_cons_of_mem _ hr))
        · rcases mem_setInsert _ _ _ hr with hr | hr
          · exact hv r (mem_allRanges_of_alloc rf r hr)
          · rw [hr]
            exact hcv
      · exact hv r (mem_allRanges_of_fin rf r hr)
    · intro r hr
      simp only at hr
      rcases mem_setInsert _ _ _ hr with hr | hr
      · exact hst r hr
      · rw [hr]
        exact ⟨fun _ => rfl, fun hx => RState.noConfusion hx, fun hx => RState.noConfusion hx,
          fun hx => RState.noConfusion hx⟩
    · intro b
      rw [allRanges]
      simp only
      rw [countCover_append, countCover_append]
      have hins := setInsert_count rf._allocateRanges
        { c with state := RState.kPending, position := c.start } b hnostart
      have hsum := stateInv_cover3 total rf ⟨hbt, hv, hst, hcov⟩ b
      rw [hA, countCover_cons] at hsum
      have hsame : (if coversB { c with state := RState.kPending, position := c.start } b
          then (1:Int) else 0) = if coversB c b then (1:Int) else 0 := rfl
      rw [hins, hsame]
      linarith

/-- A legal `fill` call (on an allocated range, at least one byte, no
overshoot) preserves the engine invariant. -/
theorem stateInv_fill (total : Int) (rf rf' : RangeFileMeta) (r r2 : Range2) (n : Int)
    (hInv : StateInv total rf) (hmem : r ∈ rf._allocateRanges) (hn : 1 ≤ n)
    (hbound : r.position + n ≤ r.end_ + 1) (h : fill rf r n = (rf', r2)) :
    StateInv total rf' := by
  obtain ⟨hbt, hv, hst, hcov⟩ := hInv
  have hrv : r.toRange.valid = true := hv r (mem_allRanges_of_alloc rf r hmem)
  have hstr := hst r hmem
  have hnotUnfilled := hstr.2.2.2
  have hnotFilled : r.state ≠ RState.kFilled := by
    intro hf
    have := hstr.2.2.1 hf
    omega
  have hpos : r.start ≤ r.position := by
    cases hstate : r.state with
    | kUnfilled => exact absurd hstate hnotUnfilled
    | kPending => rw [hstr.1 hstate]
    | kPartial => have := hstr.2.1 hstate; omega
    | kFilled => exact absurd hstate hnotFilled
  unfold fill at h
  rw [if_neg (by simp [hrv, hnotFilled, hnotUnfilled]), if_neg (by omega)] at h
  simp only at h
  injection h with h1 h2
  have hpw := stateInv_alloc_pairwise total rf ⟨hbt, hv, hst, hcov⟩
  obtain ⟨l1, l2, hsplit, hl1⟩ := mem_decomp_unique_start _ r hpw hmem
  have hupd : setUpdate rf._allocateRanges
      (⟨r.toRange, r.position + n,
        if r.position + n = r.end_ + 1 then RState.kFilled else RState.kPartial⟩ : Range2)
      = l1 ++ (⟨r.toRange, r.position + n,
          if r.position + n = r.end_ + 1 then RState.kFilled
          else RState.kPartial⟩ : Range2) :: l2 := by
    rw [hsplit]
    exact setUpdate_append l1 l2 r _ hl1 rfl
  rw [← h1]
  refine ⟨hbt, ?_, ?_, ?_⟩
  · intro x hx
    rw [allRanges] at hx
    simp only at hx
    rcases List.mem_append.mp hx with hx | hx
    · rcases List.mem_append.mp hx with hx | hx
      · exact hv x (mem_allRanges_of_avail rf x hx)
      · rw [hupd] at hx
        rcases List.mem_append.mp hx with hx | hx
        · exact hv x (mem_allRanges_of_alloc rf x (by rw [hsplit]; exact List.mem_append_left _ hx))
        · rcases List.mem_cons.mp hx with hx | hx
          · rw [hx]; exact hrv
          · exact hv x (mem_allRanges_of_alloc rf x
              (by rw [hsplit]; exact List.mem_append_right _ (List.mem_cons_of_mem _ hx)))
    · exact hv x (mem_allRanges_of_fin rf x hx)
  · intro x hx
    simp only at hx
    rw [hupd] at hx
    rcases List.mem_append.mp hx with hx | hx
    · exact hst x (by rw [hsplit]; exact List.mem_append_left _ hx)
    · rcases List.mem_cons.mp hx with hx | hx
      · rw [hx]
        by_cases hif : r.position + n = r.end_ + 1
        · rw [if_pos hif]
          exact ⟨fun hx2 => absurd hx2 (by simp [range2_mk_state]),
            fun hx2 => absurd hx2 (by simp [range2_mk_state]),
            fun _ => by simp only [range2_mk_position, range2_mk_end]; omega,
            by simp [range2_mk_state]⟩
        · rw [if_neg hif]
          exact ⟨fun hx2 => absurd hx2 (by simp [range2_mk_state]),
            fun _ => by simp only [range2_mk_position, range2_mk_start, range2_mk_end]; omega,
            fun hx2 => absurd hx2 (by simp [range2_mk_state]),
            by simp [range2_mk_state]⟩
      · exact hst x (by rw [hsplit]; exact List.mem_append_right _ (List.mem_cons_of_mem _ hx))
  · intro b
    rw [allRanges]
    simp only
    rw [countCover_append, countCover_append, hupd, countCover_append, countCover_cons]
    have hsum := stateInv_cover3 total rf ⟨hbt, hv, hst, hcov⟩ b
    rw [hsplit, countCover_append, countCover_cons] at hsum
    have hsame : (if coversB (⟨r.toRange, r.position + n,
        if r.position + n = r.end_ + 1 then RState.kFilled
        else RState.kPartial⟩ : Range2) b then (1:Int) else 0)
        = if coversB r b then (1:Int) else 0 := rfl
    rw [hsame]
    linarith

/-- A legal `deallocate` call (on an allocated member) preserves the
engine invariant. -/
theorem stateInv_dealloc (total : Int) (rf rf' : RangeFileMeta) (r : Range2) (bres : Bool)
    (hInv : StateInv total rf) (hmem : r ∈ rf._allocateRanges)
    (h : deallocate rf r = (rf', bres)) : StateInv total rf' := by
  obtain ⟨hbt, hv, hst, hcov⟩ := hInv
  have hrv : r.toRange.valid = true := hv r (mem_allRanges_of_alloc rf r hmem)
  have hrv' := hrv
  rw [Range.valid, Bool.and_eq_true, decide_eq_true_eq, decide_eq_true_eq] at hrv'
  have hstr := hst r hmem
  have hpw := stateInv_alloc_pairwise total rf ⟨hbt, hv, hst, hcov⟩
  obtain ⟨l1, l2, hsplit, hl1⟩ := mem_decomp_unique_start _ r hpw hmem
  have herase : setErase rf._allocateRanges r.start = l1 ++ l2 := by
    rw [hsplit]
    exact setErase_append l1 l2 r hl1
  have hmeml1 : ∀ x ∈ l1, x ∈ rf._allocateRanges := by
    intro x hx; rw [hsplit]; exact List.mem_append_left _ hx
  have hmeml2 : ∀ x ∈ l2, x ∈ rf._allocateRanges := by
    intro x hx; rw [hsplit]; exact List.mem_append_right _ (List.mem_cons_of_mem _ hx)
  have hcA : ∀ b : Int, countCover rf._allocateRanges b
      = countCover l1 b + ((if coversB r b then (1:Int) else 0) + countCover l2 b) := by
    intro b; rw [hsplit, countCover_append, countCover_cons]
  have hsum := stateInv_cover3 total rf ⟨hbt, hv, hst, hcov⟩
  have hsumle := stateInv_cover3_le total rf ⟨hbt, hv, hst, hcov⟩
  unfold deallocate at h
  cases hfd : setFindStart rf._allocateRanges r.start with
  | none =>
    have hfind := setFindStart_isSome_of_mem _ r hmem
    rw [hfd] at hfind
    cases hfind
  | some y =>
    rw [hfd] at h
    simp only at h
    cases hstate : r.state with
    | kUnfilled => exact absurd hstate hstr.2.2.2
    | kPending =>
      rw [hstate] at h
      simp only at h
      injection h with h1 h2
      have hnoavail : ∀ x ∈ rf._availableRanges,
          x.start ≠ (⟨⟨r.start, r.end_⟩, 0, RState.kUnfilled⟩ : Range2).start := by
        intro x hx heq
        rw [range2_mk_start] at heq
        have hxv := hv x (mem_allRanges_of_avail rf x hx)
        have h1 : (1:Int) ≤ countCover rf._availableRanges r.start := by
          refine countCover_ge_one _ x _ hx ?_
          have := valid_covers_start x hxv
          simpa [coversB, heq] using this
        have h2 : (1:Int) ≤ countCover rf._allocateRanges r.start :=
          countCover_ge_one _ r _ hmem (valid_covers_start r hrv)
        have h3 := countCover_nonneg rf._finishedRanges r.start
        have h4 := hsumle r.start
        linarith
      rw [← h1]
      refine ⟨hbt, ?_, ?_, ?_⟩
      · intro x hx
        rw [allRanges] at hx
        simp only at hx
        rcases List.mem_append.mp hx with hx | hx
        · rcases List.mem_append.mp hx with hx | hx
          · rcases mem_setInsert _ _ _ hx with hx | hx
            · exact hv x (mem_allRanges_of_avail rf x hx)
            · rw [hx]
              exact hrv
          · rw [herase] at hx
            rcases List.mem_append.mp hx with hx | hx
            · exact hv x (mem_allRanges_of_alloc rf x (hmeml1 x hx))
            · exact hv x (mem_allRanges_of_alloc rf x (hmeml2 x hx))
        · exact hv x (mem_allRanges_of_fin rf x hx)
      · intro x hx
        simp only at hx
        rw [herase] at hx
        rcases List.mem_append.mp hx with hx | hx
        · exact hst x (hmeml1 x hx)
        · exact hst x (hmeml2 x hx)
      · intro b
        rw [allRanges]
        simp only
        rw [countCover_append, countCover_append, herase, countCover_append,
          setInsert_count _ _ _ hnoavail]
        have hsame : (if coversB (⟨⟨r.start, r.end_⟩, 0, RState.kUnfilled⟩ : Range2) b
            then (1:Int) else 0) = if coversB r b then (1:Int) else 0 := rfl
        rw [hsame]
        have := hsum b
        have := hcA b
        linarith
    | kFilled =>
      rw [hstate] at h
      simp only at h
      injection h with h1 h2
      have hnofin : ∀ x ∈ rf._finishedRanges, x.start ≠ r.start := by
        intro x hx heq
        have hxv := hv x (mem_allRanges_of_fin rf x hx)
        have h1 : (1:Int) ≤ countCover rf._finishedRanges r.start := by
          refine countCover_ge_one _ x _ hx ?_
          have := valid_covers_start x hxv
          simpa [coversB, heq] using this
        have h2 : (1:Int) ≤ countCover rf._allocateRanges r.start :=
          countCover_ge_one _ r _ hmem (valid_covers_start r hrv)
        have h3 := countCover_nonneg rf._availableRanges r.start
        have h4 := hsumle r.start
        linarith
      have hinscnt := fun b => setInsert_count rf._finishedRanges r b hnofin
      have hinsval : ∀ x ∈ setInsert rf._finishedRanges r, x.toRange.valid = true := by
        intro x hx
        rcases mem_setInsert _ _ _ hx with hx | hx
        · exact hv x (mem_allRanges_of_fin rf x hx)
        · rw [hx]; exact hrv
      have hinsle : ∀ b : Int, countCover (setInsert rf._finishedRanges r) b ≤ 1 := by
        intro b
        rw [hinscnt b]
        have := hsumle b
        have := hcA b
        have := countCover_nonneg rf._availableRanges b
        have := countCover_nonneg l1 b
        have := countCover_nonneg l2 b
        linarith
      cases hI : setInsert rf._finishedRanges r with
      | nil => exact absurd hI (setInsert_ne_nil _ _)
      | cons x xs =>
        have hmrg := mergeRangesList_spec x xs (by rw [← hI]; exact hinsval)
          (by
            rw [← hI]
            exact pairwise_nonintersect _ hinsval hinsle)
        rw [← h1]
        refine ⟨hbt, ?_, ?_, ?_⟩
        · intro z hz
          rw [allRanges] at hz
          simp only at hz
          rcases List.mem_append.mp hz with hz | hz
          · rcases List.mem_append.mp hz with hz | hz
            · exact hv z (mem_allRanges_of_avail rf z hz)
            · rw [herase] at hz
              rcases List.mem_append.mp hz with hz | hz
              · exact hv z (mem_allRanges_of_alloc rf z (hmeml1 z hz))
              · exact hv z (mem_allRanges_of_alloc rf z (hmeml2 z hz))
          · rw [hI] at hz
            exact hmrg.2 z hz
        · intro z hz
          simp only at hz
          rw [herase] at hz
          rcases List.mem_append.mp hz with hz | hz
          · exact hst z (hmeml1 z hz)
          · exact hst z (hmeml2 z hz)
        · intro b
          rw [allRanges]
          simp only
          rw [countCover_append, countCover_append, herase, countCover_append, hI]
          rw [hmrg.1 b, ← hI, hinscnt b]
          have := hsum b
          have := hcA b
          linarith
    | kPartial =>
      rw [hstate] at h
      simp only at h
      injection h with h1 h2
      have hpp := hstr.2.1 hstate
      have hnofin : ∀ x ∈ rf._finishedRanges,
          x.start ≠ (⟨⟨r.start, r.position - 1⟩, r.position - 1, RState.kFilled⟩
            : Range2).start := by
        intro x hx heq
        rw [range2_mk_start] at heq
        have hxv := hv x (mem_allRanges_of_fin rf x hx)
        have h1 : (1:Int) ≤ countCover rf._finishedRanges r.start := by
          refine countCover_ge_one _ x _ hx ?_
          have := valid_covers_start x hxv
          simpa [coversB, heq] using this
        have h2 : (1:Int) ≤ countCover rf._allocateRanges r.start :=
          countCover_ge_one _ r _ hmem (valid_covers_start r hrv)
        have h3 := countCover_nonneg rf._availableRanges r.start
        have h4 := hsumle r.start
        linarith
      have hnoavail : ∀ x ∈ rf._availableRanges,
          x.start ≠ (⟨⟨r.position, r.end_⟩, 0, RState.kUnfilled⟩ : Range2).start := by
        intro x hx heq
        rw [range2_mk_start] at heq
        have hxv := hv x (mem_allRanges_of_avail rf x hx)
        have h1 : (1:Int) ≤ countCover rf._availableRanges r.position := by
          refine countCover_ge_one _ x _ hx ?_
          have := valid_covers_start x hxv
          simpa [coversB, heq] using this
        have h2 : (1:Int) ≤ countCover rf._allocateRanges r.position := by
          refine countCover_ge_one _ r _ hmem ?_
          simp [coversB]
          omega
        have h3 := countCover_nonneg rf._finishedRanges r.position
        have h4 := hsumle r.position
        linarith
      have hpfxv : (⟨⟨r.start, r.position - 1⟩, r.position - 1, RState.kFilled⟩
          : Range2).toRange.valid = true := by
        simp [Range.valid]
        omega
      have hinscnt := fun b => setInsert_count rf._finishedRanges
        ⟨⟨r.start, r.position - 1⟩, r.position - 1, RState.kFilled⟩ b hnofin
      have hinsval : ∀ x ∈ setInsert rf._finishedRanges
          ⟨⟨r.start, r.position - 1⟩, r.position - 1, RState.kFilled⟩,
          x.toRange.valid = true := by
        intro x hx
        rcases mem_setInsert _ _ _ hx with hx | hx
        · exact hv x (mem_allRanges_of_fin rf x hx)
        · rw [hx]; exact hpfxv
      have hpfxle : ∀ b : Int,
          (if coversB (⟨⟨r.start, r.position - 1⟩, r.position - 1, RState.kFilled⟩
            : Range2) b then (1:Int) else 0) ≤ if coversB r b then (1:Int) else 0 := by
        intro b
        simp only [coversB, range2_mk_start, range2_mk_end, Bool.and_eq_true, decide_eq_true_eq]
        split_ifs <;> omega
      have hsplitcov : ∀ b : Int,
          (if coversB (⟨⟨r.start, r.position - 1⟩, r.position - 1, RState.kFilled⟩
            : Range2) b then (1:Int) else 0)
          + (if coversB (⟨⟨r.position, r.end_⟩, 0, RState.kUnfilled⟩
            : Range2) b then (1:Int) else 0)
          = if coversB r b then (1:Int) else 0 := by
        intro b
        simp only [coversB, range2_mk_start, range2_mk_end, Bool.and_eq_true, decide_eq_true_eq]
        split_ifs <;> omega
      have hinsle : ∀ b : Int, countCover (setInsert rf._finishedRanges
          ⟨⟨r.start, r.position - 1⟩, r.position - 1, RState.kFilled⟩) b ≤ 1 := by
        intro b
        rw [hinscnt b]
        have := hsumle b
        have := hcA b
        have := countCover_nonneg rf._availableRanges b
        have := countCover_nonneg l1 b
        have := countCover_nonneg l2 b
        have := hpfxle b
        linarith
      cases hI : setInsert rf._finishedRanges
          ⟨⟨r.start, r.position - 1⟩, r.position - 1, RState.kFilled⟩ with
      | nil => exact absurd hI (setInsert_ne_nil _ _)
      | cons x xs =>
        have hmrg := mergeRangesList_spec x xs (by rw [← hI]; exact hinsval)
          (by
            rw [← hI]
            exact pairwise_nonintersect _ hinsval hinsle)
        rw [← h1]
        refine ⟨hbt, ?_, ?_, ?_⟩
        · intro z hz
          rw [allRanges] at hz
          simp only at hz
          rcases List.mem_append.mp hz with hz | hz
          · rcases List.mem_append.mp hz with hz | hz
            · rcases mem_setInsert _ _ _ hz with hz | hz
              · exact hv z (mem_allRanges_of_avail rf z hz)
              · rw [hz]
                simp [Range.valid]
                omega
            · rw [herase] at hz
              rcases List.mem_append.mp hz with hz | hz
              · exact hv z (mem_allRanges_of_alloc rf z (hmeml1 z hz))
              · exact hv z (mem_allRanges_of_alloc rf z (hmeml2 z hz))
          · rw [hI] at hz
            exact hmrg.2 z hz
        · intro z hz
          simp only at hz
          rw [herase] at hz
          rcases List.mem_append.mp hz with hz | hz
          · exact hst z (hmeml1 z hz)
          · exact hst z (hmeml2 z hz)
        · intro b
          rw [allRanges]
          simp only
          rw [countCover_append, countCover_append, herase, countCover_append, hI]
          rw [hmrg.1 b, ← hI, hinscnt b]
          rw [setInsert_count _ _ _ hnoavail]
          have := hsum b
          have := hcA b
          have := hsplitcov b
          linarith

/-- The first completed `allocate` on a freshly reserved state
establishes the engine invariant (the tiling covers `[0, total-1]`). -/
theorem stateInv_establish (total hint : Int) (htotal : 0 < total) (rf' : RangeFileMeta)
    (res : Option Range2) (fuel : Nat)
    (h : allocate fuel (freshMeta total hint) = some (rf', res)) : StateInv total rf' := by
  unfold allocate at h
  rw [if_neg (show ¬ (freshMeta total hint)._bytesTotal ≤ 0 by simp [freshMeta]; omega)] at h
  rw [if_pos (show ((freshMeta total hint)._availableRanges.isEmpty
      && (freshMeta total hint)._allocateRanges.isEmpty
      && (freshMeta total hint)._finishedRanges.isEmpty) = true from rfl)] at h
  cases hT : tileLoop (freshMeta total hint)._blockHint (freshMeta total hint)._bytesTotal fuel
      { start := 0, end_ := 0 } [] with
  | none =>
    rw [hT] at h
    cases h
  | some L =>
    rw [hT] at h
    have hchain : TileChain hint total 0 L := by
      refine tileLoop_entry_chain hint total (by omega) fuel L ?_
      exact hT
    have hLcov := tileChain_cover hint total 0 L hchain
    have hLval := tileChain_valid hint total 0 L hchain
    cases hL : L with
    | nil =>
      rw [hL] at hchain
      cases hchain
    | cons c rest =>
      rw [hL] at h
      simp only at h
      injection h with h
      injection h with h1 h2
      rw [← h1]
      have hcv : c.toRange.valid = true := hLval c (by rw [hL]; exact List.mem_cons_self _ _)
      refine ⟨rfl, ?_, ?_, ?_⟩
      · intro x hx
        rw [allRanges] at hx
        simp only [freshMeta] at hx
        rcases List.mem_append.mp hx with hx | hx
        · rcases List.mem_append.mp hx with hx | hx
          · exact hLval x (by rw [hL]; exact List.mem_cons_of_mem _ hx)
          · rcases mem_setInsert _ _ _ hx with hx | hx
            · cases hx
            · rw [hx]; exact hcv
        · cases hx
      · intro x hx
        simp only [freshMeta] at hx
        rcases mem_setInsert _ _ _ hx with hx | hx
        · cases hx
        · rw [hx]
          exact ⟨fun _ => rfl, fun hx2 => RState.noConfusion hx2,
            fun hx2 => RState.noConfusion hx2, fun hx2 => RState.noConfusion hx2⟩
      · intro b
        rw [allRanges]
        simp only [freshMeta]
        rw [countCover_append, countCover_append]
        have hLb := hLcov b
        rw [hL, countCover_cons] at hLb
        have hone : countCover (setInsert [] (⟨c.toRange, c.start, RState.kPending⟩ : Range2)) b
            = if coversB c b then (1:Int) else 0 := by
          rw [show setInsert [] (⟨c.toRange, c.start, RState.kPending⟩ : Range2)
            = [⟨c.toRange, c.start, RState.kPending⟩] from rfl]
          rw [countCover_cons, countCover_nil, add_zero]
          rfl
        rw [hone, countCover_nil]
        have hz : (0 ≤ b ∧ b < total) ↔ (0 ≤ b ∧ b < total) := Iff.rfl
        linarith
      
/-- Every state reachable by legal calls is the fresh state or satisfies
the engine invariant. -/
theorem reach_fresh_or_inv (total hint : Int) (htotal : 0 < total) (rf : RangeFileMeta)
    (h : Reach total hint rf) : rf = freshMeta total hint ∨ StateInv total rf := by
  induction h with
  | init => left; rfl
  | alloc rf0 rf' res fuel hR halloc ih =>
    right
    rcases ih with ih | ih
    · exact stateInv_establish total hint htotal rf' res fuel (ih ▸ halloc)
    · exact stateInv_allocate total htotal rf0 rf' res fuel ih halloc
  | fillStep rf0 rf' r r2 n hR hmem hn hbound hfill ih =>
    right
    rcases ih with ih | ih
    · rw [ih] at hmem
      simp [freshMeta] at hmem
    · exact stateInv_fill total rf0 rf' r r2 n ih hmem hn hbound hfill
  | dealloc rf0 rf' r bres hR hmem hdeal ih =>
    right
    rcases ih with ih | ih
    · rw [ih] at hmem
      simp [freshMeta] at hmem
    · exact stateInv_dealloc total rf0 rf' r bres ih hmem hdeal

/-- Every tracked interval of an invariant state sits inside `[0, total-1]`. -/
theorem stateInv_bounds (total : Int) (rf : RangeFileMeta) (h : StateInv total rf) :
    ∀ r ∈ allRanges rf, 0 ≤ r.start ∧ r.start ≤ r.end_ ∧ r.end_ < total := by
  intro r hr
  have hrv := h.2.1 r hr
  have hs := countCover_ge_one _ r r.start hr (valid_covers_start r hrv)
  have he := countCover_ge_one _ r r.end_ hr (valid_covers_end r hrv)
  have h1 := h.2.2.2 r.start
  have h2 := h.2.2.2 r.end_
  rw [Range.valid, Bool.and_eq_true, decide_eq_true_eq, decide_eq_true_eq] at hrv
  split_ifs at h1 h2 <;> omega

theorem cover_sum_size (total : Int) (r : Range2)
    (h1 : 0 ≤ r.start) (h2 : r.start ≤ r.end_) (h3 : r.end_ < total) :
    (Finset.Icc (0:Int) (total - 1)).sum (fun b => if coversB r b then (1:Int) else 0)
      = r.toRange.size := by
  have hsub : Finset.Icc r.start r.end_ ⊆ Finset.Icc (0:Int) (total - 1) := by
    intro b hb
    rw [Finset.mem_Icc] at hb ⊢
    omega
  rw [← Finset.sum_subset hsub (by
    intro b hb hnb
    rw [Finset.mem_Icc] at hb
    simp only [Finset.mem_Icc, not_and, not_le] at hnb
    rw [if_neg]
    simp only [coversB, Bool.and_eq_true, decide_eq_true_eq]
    omega)]
  have hcongr : ∀ b ∈ Finset.Icc r.start r.end_, (if coversB r b then (1:Int) else 0) = 1 := by
    intro b hb
    rw [Finset.mem_Icc] at hb
    rw [if_pos]
    simp only [coversB, Bool.and_eq_true, decide_eq_true_eq]
    omega
  rw [Finset.sum_congr rfl hcongr, Finset.sum_const, Int.card_Icc, nsmul_eq_mul, mul_one]
  rw [Range.size, if_pos (by rw [Range.valid]; simp; omega)]
  omega

theorem sum_count_eq_sumSizes (total : Int) (L : List Range2)
    (hbnd : ∀ r ∈ L, 0 ≤ r.start ∧ r.start ≤ r.end_ ∧ r.end_ < total) :
    (Finset.Icc (0:Int) (total - 1)).sum (fun b => countCover L b) = sumSizes L := by
  induction L with
  | nil => simp [countCover, sumSizes]
  | cons x xs ih =>
    obtain ⟨hx1, hx2, hx3⟩ := hbnd x (List.mem_cons_self _ _)
    have hrw : (fun b => countCover (x :: xs) b)
        = fun b => (if coversB x b then (1:Int) else 0) + countCover xs b :=
      funext (countCover_cons x xs)
    rw [hrw, Finset.sum_add_distrib, cover_sum_size total x hx1 hx2 hx3,
      ih (fun r hr => hbnd r (List.mem_cons_of_mem _ hr))]
    simp [sumSizes]

theorem sum_indicator_total (total : Int) (htotal : 0 < total) :
    (Finset.Icc (0:Int) (total - 1)).sum
      (fun b => if 0 ≤ b ∧ b < total then (1:Int) else 0) = total := by
  have hcongr : ∀ b ∈ Finset.Icc (0:Int) (total - 1),
      (if 0 ≤ b ∧ b < total then (1:Int) else 0) = 1 := by
    intro b hb
    rw [Finset.mem_Icc] at hb
    rw [if_pos (by omega)]
  rw [Finset.sum_congr rfl hcongr, Finset.sum_const, Int.card_Icc, nsmul_eq_mul, mul_one]
  omega

/-- In an invariant state the members of the three sets account for
exactly `bytesTotal` bytes. -/
theorem stateInv_sum (total : Int) (htotal : 0 < total) (rf : RangeFileMeta)
    (h : StateInv total rf) : sumSizes (allRanges rf) = total := by
  rw [← sum_count_eq_sumSizes total (allRanges rf) (stateInv_bounds total rf h)]
  rw [show (fun b => countCover (allRanges rf) b)
      = fun b => if 0 ≤ b ∧ b < total then (1:Int) else 0 from funext h.2.2.2]
  exact sum_indicator_total total htotal

theorem disjoint_of_counts (A B : List Range2)
    (hle : ∀ b : Int, countCover A b + countCover B b ≤ 1) : DisjointBytes A B := by
  intro b hcon
  obtain ⟨⟨r1, h1m, h1c⟩, ⟨r2, h2m, h2c⟩⟩ := hcon
  have := countCover_ge_one A r1 b h1m h1c
  have := countCover_ge_one B r2 b h2m h2c
  have := hle b
  linarith

theorem stateInv_disjoint (total : Int) (rf : RangeFileMeta) (h : StateInv total rf) :
    DisjointBytes rf._availableRanges rf._allocateRanges ∧
    DisjointBytes rf._availableRanges rf._finishedRanges ∧
    DisjointBytes rf._allocateRanges rf._finishedRanges := by
  have hle := stateInv_cover3_le total rf h
  refine ⟨disjoint_of_counts _ _ ?_, disjoint_of_counts _ _ ?_, disjoint_of_counts _ _ ?_⟩ <;>
    intro b <;>
    have h1 := hle b <;>
    have h2 := countCover_nonneg rf._availableRanges b <;>
    have h3 := countCover_nonneg rf._allocateRanges b <;>
    have h4 := countCover_nonneg rf._finishedRanges b <;>
    linarith

theorem range_mk_start (a b : Int) : (⟨a, b⟩ : Range).start = a := rfl

theorem range_mk_end (a b : Int) : (⟨a, b⟩ : Range).end_ = b := rfl

theorem tileChain_ne_nil (hint total : Int) (s : Int) (T : List Range2)
    (h : TileChain hint total s T) : T ≠ [] := by
  cases h <;> simp

theorem tileChain_sizes (hint total : Int) (s : Int) (T : List Range2)
    (h : TileChain hint total s T) :
    ∀ r ∈ T, 1 ≤ r.toRange.size ∧ r.toRange.size ≤ hint := by
  induction h with
  | last s h0 h1 h2 =>
    intro r hr
    simp only [List.mem_singleton] at hr
    rw [hr]
    rw [show (⟨⟨s, total - 1⟩, 0, RState.kUnfilled⟩ : Range2).toRange = ⟨s, total - 1⟩ from rfl]
    rw [Range.size, if_pos (by rw [Range.valid]; simp; omega)]
    simp only [range_mk_start, range_mk_end]
    omega
  | cons s T h0 hhint hmin hlt hchain ih =>
    intro r hr
    rcases List.mem_cons.mp hr with hr | hr
    · rw [hr]
      rw [show (⟨⟨s, s + hint - 1⟩, 0, RState.kUnfilled⟩ : Range2).toRange
        = ⟨s, s + hint - 1⟩ from rfl]
      rw [Range.size, if_pos (by rw [Range.valid]; simp; omega)]
      simp only [range_mk_start, range_mk_end]
      omega
    · exact ih r hr

theorem tileChain_dropLast (hint total : Int) (s : Int) (T : List Range2)
    (h : TileChain hint total s T) :
    ∀ r ∈ T.dropLast, r.toRange.size = hint := by
  induction h with
  | last s h0 h1 h2 =>
    intro r hr
    simp at hr
  | cons s T h0 hhint hmin hlt hchain ih =>
    intro r hr
    cases hT : T with
    | nil => exact absurd hT (tileChain_ne_nil hint total (s + hint) T hchain)
    | cons c2 T2 =>
      rw [hT, List.dropLast_cons₂] at hr
      rcases List.mem_cons.mp hr with hr | hr
      · rw [hr]
        rw [show (⟨⟨s, s + hint - 1⟩, 0, RState.kUnfilled⟩ : Range2).toRange
          = ⟨s, s + hint - 1⟩ from rfl]
        rw [Range.size, if_pos (by rw [Range.valid]; simp; omega)]
        simp only [range_mk_start, range_mk_end]
        omega
      · exact ih r (by rw [hT]; exact hr)

theorem tileChain_chain' (hint total : Int) (s : Int) (T : List Range2)
    (h : TileChain hint total s T) :
    List.Chain' (fun a b : Range2 => b.start = a.end_ + 1) T := by
  induction h with
  | last s h0 h1 h2 => exact List.chain'_singleton _
  | cons s T h0 hhint hmin hlt hchain ih =>
    refine List.chain'_cons'.mpr ⟨?_, ih⟩
    intro y hy
    obtain ⟨c2, T2, hT2, hstart, _⟩ := tileChain_head hint total (s + hint) T hchain
    rw [hT2] at hy
    simp only [List.head?_cons, Option.mem_def, Option.some_inj] at hy
    subst hy
    rw [hstart, range2_mk_end]
    omega

theorem tileChain_last_end (hint total : Int) (s : Int) (T : List Range2)
    (h : TileChain hint total s T) :
    ∀ q, T.getLast? = some q → q.end_ = total - 1 := by
  induction h with
  | last s h0 h1 h2 =>
    intro q hq
    simp only [List.getLast?_singleton, Option.some_inj] at hq
    rw [← hq, range2_mk_end]
  | cons s T h0 hhint hmin hlt hchain ih =>
    intro q hq
    cases hT : T with
    | nil => exact absurd hT (tileChain_ne_nil hint total (s + hint) T hchain)
    | cons c2 T2 =>
      rw [hT, List.getLast?_cons_cons] at hq
      exact ih q (by rw [hT]; exact hq)

/-! ### Claim theorems -/

/-- Claim C10: for every RangeFile whose `bytesTotal ≤ 0` — including
the default-constructed, never-reserved state, opened or not — `allocate`
returns false and leaves the three sets and the processed counter
unchanged: the guard makes the call a total, side-effect-free rejection. -/
theorem allocate_rejects_nonpositive_total (rf : RangeFileMeta) (fuel : Nat)
    (h : rf._bytesTotal ≤ 0) : allocate fuel rf = some (rf, none) := by
  unfold allocate
  rw [if_pos h]

/-- Witness for C10 at the default-constructed state. -/
theorem allocate_rejects_nonpositive_total_witness :
    ({} : RangeFileMeta)._bytesTotal ≤ 0 ∧ allocate 7 {} = some ({}, none) :=
  ⟨by decide, allocate_rejects_nonpositive_total {} 7 (by decide)⟩

/-- Claim C9 counterexample: `[0,5]` and `[0,9]` have different ends,
yet the ordering used by the three `std::set`s treats them as the same
member (neither is `operator<` the other), and `deallocate` handed a
copy with a different end still finds — and removes — the canonical
allocated entry. -/
theorem setEquiv_ignores_end_counterexample :
    Range.setEquiv ⟨0, 5⟩ ⟨0, 9⟩ = true ∧ (⟨0, 5⟩ : Range).end_ ≠ (⟨0, 9⟩ : Range).end_ ∧
    (deallocate { _bytesTotal := 10, _allocateRanges := [⟨⟨0, 9⟩, 0, .kPending⟩] }
      ⟨⟨0, 5⟩, 0, .kPending⟩).2 = true := by
  decide

/-- Claim C9 (amended): under the ordering that stores the three
interval sets (`Range::operator<`), two TrackedIntervals are equivalent
members iff their `start`s coincide — the `end` is ignored, which is
what lets `deallocate`/`fill` locate the canonical entry; the separate
`Range::operator==` (used e.g. by `is_full`) requires both `start` and
`end` to match. -/
theorem setEquiv_iff_start_eq (a b : Range) :
    (Range.setEquiv a b = true ↔ a.start = b.start) ∧
    (Range.eqOp a b = true ↔ a.start = b.start ∧ a.end_ = b.end_) := by
  constructor
  · simp only [Range.setEquiv, Range.lt, Bool.and_eq_true, Bool.not_eq_true',
      decide_eq_false_iff_not, not_lt]
    omega
  · simp [Range.eqOp]

/-- Claim C8: `DownloadFile` chooses single-connection direct mode
exactly when the probe was skipped (`connections ≤ 1`, leaving the
attribute at its default with `contentLength = -1`), or the (effective)
`contentLength` is `-1`, or it is at most `blockSize`, or `acceptRanges`
is empty, or `0 < contentLength < 10 MiB`; otherwise multi mode. -/
theorem downloadfile_direct_mode_iff (connections blockSize : Int) (probed : file_attribute) :
    DownloadFileIsDirect connections blockSize probed = true ↔
      (connections ≤ 1 ∨
       (if 1 < connections then probed else {}).contentLength = -1 ∨
       (if 1 < connections then probed else {}).contentLength ≤ blockSize ∨
       (if 1 < connections then probed else {}).acceptRanges = "" ∨
       (0 < (if 1 < connections then probed else {}).contentLength ∧
        (if 1 < connections then probed else {}).contentLength < 10 * 1024 * 1024)) := by
  unfold DownloadFileIsDirect
  by_cases hc : 1 < connections
  · have hc2 : ¬ (connections ≤ 1) := by omega
    simp only [if_pos hc, Bool.or_eq_true, Bool.and_eq_true, decide_eq_true_eq]
    tauto
  · have hc2 : connections ≤ 1 := by omega
    simp only [if_neg hc, Bool.or_eq_true, Bool.and_eq_true, decide_eq_true_eq]
    tauto

/-- Claim C7: with no pending filesystem error and no cancellation, the
request-error classifier returns non-fatal with the error untouched for
status 200/206, fatal `kFileNotFound` for 404, fatal `kServerError for`
503, non-fatal `kOperationFailed` for any other status ≥ 400, and
non-fatal `kNetworkError` for the seven listed transport errors; a
pending filesystem error is returned as fatal regardless of the
response. -/
theorem handle_request_error_classification :
    (∀ (s flag : Int), (s = 200 ∨ s = 206) →
        HandleRequestError s .OK none flag = (false, none)) ∧
    (∀ flag : Int, HandleRequestError 404 .OK none flag = (true, some kFileNotFound)) ∧
    (∀ flag : Int, HandleRequestError 503 .OK none flag = (true, some kServerError)) ∧
    (∀ (s flag : Int), 400 ≤ s → s ≠ 404 → s ≠ 503 →
        HandleRequestError s .OK none flag = (false, some kOperationFailed)) ∧
    (∀ (s flag : Int) (c : CprErrorCode),
        (c = .SEND_ERROR ∨ c = .RECV_ERROR ∨ c = .COULDNT_RESOLVE_HOST ∨ c = .COULDNT_CONNECT
          ∨ c = .PROXY ∨ c = .OPERATION_TIMEDOUT ∨ c = .SSL_CONNECT_ERROR) →
        HandleRequestError s c none flag = (false, some kNetworkError)) ∧
    (∀ (s flag e : Int) (c : CprErrorCode),
        HandleRequestError s c (some e) flag = (true, some e)) := by
  refine ⟨?_, ?_, ?_, ?_, ?_, ?_⟩
  · intro s flag hs
    unfold HandleRequestError
    rw [if_pos hs]
  · intro flag
    rfl
  · intro flag
    rfl
  · intro s flag h1 h2 h3
    unfold HandleRequestError
    rw [if_neg (show ¬ (s = 200 ∨ s = 206) by omega), if_neg h2, if_neg h3, if_pos h1]
  · intro s flag c hc
    rcases hc with rfl | rfl | rfl | rfl | rfl | rfl | rfl <;> rfl
  · intro s flag e c
    rfl

/-- Witness for C7 at concrete statuses and transport codes. -/
theorem handle_request_error_classification_witness :
    HandleRequestError 200 .OK none kRunning = (false, none) ∧
    HandleRequestError 404 .OK none kRunning = (true, some kFileNotFound) ∧
    HandleRequestError 503 .OK none kRunning = (true, some kServerError) ∧
    HandleRequestError 500 .OK none kRunning = (false, some kOperationFailed) ∧
    HandleRequestError 0 .OPERATION_TIMEDOUT none kRunning = (false, some kNetworkError) ∧
    HandleRequestError 206 .OK (some kFilesystemError) kRunning
      = (true, some kFilesystemError) :=
  ⟨handle_request_error_classification.1 200 kRunning (Or.inl rfl),
   handle_request_error_classification.2.1 kRunning,
   handle_request_error_classification.2.2.1 kRunning,
   handle_request_error_classification.2.2.2.1 500 kRunning (by omega) (by omega) (by omega),
   handle_request_error_classification.2.2.2.2.1 0 kRunning .OPERATION_TIMEDOUT
     (by tauto),
   handle_request_error_classification.2.2.2.2.2 206 kRunning kFilesystemError .OK⟩

/-- Claim C4 is a code bug: on a 10-byte file with hint 16, allocate
hands out `[0,9]`, a 5-byte fill makes it Partial with cursor 5, and
deallocate splits it — but the prefix inserted into `finished` carries
`position = 4`, its own end, instead of `end + 1 = 5`.  The `kPartial`
branch stores `range.position - 1` where the Filled discipline — relied
on by the `kFilled` branch's own assertion `position == end + 1` and
established by `fill` — requires `range.position`. -/
theorem deallocate_partial_position_bug :
    allocate 12 (freshMeta 10 16)
      = some ({ _blockHint := 16, _bytesTotal := 10, _bytesProcessed := 0,
                _allocateRanges := [⟨⟨0, 9⟩, 0, .kPending⟩], _finishedRanges := [],
                _availableRanges := [] }, some ⟨⟨0, 9⟩, 0, .kPending⟩) ∧
    fill { _blockHint := 16, _bytesTotal := 10, _bytesProcessed := 0,
           _allocateRanges := [⟨⟨0, 9⟩, 0, .kPending⟩], _finishedRanges := [],
           _availableRanges := [] } ⟨⟨0, 9⟩, 0, .kPending⟩ 5
      = ({ _blockHint := 16, _bytesTotal := 10, _bytesProcessed := 5,
           _allocateRanges := [⟨⟨0, 9⟩, 5, .kPartial⟩], _finishedRanges := [],
           _availableRanges := [] }, ⟨⟨0, 9⟩, 5, .kPartial⟩) ∧
    deallocate { _blockHint := 16, _bytesTotal := 10, _bytesProcessed := 5,
                 _allocateRanges := [⟨⟨0, 9⟩, 5, .kPartial⟩], _finishedRanges := [],
                 _availableRanges := [] } ⟨⟨0, 9⟩, 5, .kPartial⟩
      = ({ _blockHint := 16, _bytesTotal := 10, _bytesProcessed := 5,
           _allocateRanges := [], _finishedRanges := [⟨⟨0, 4⟩, 4, .kFilled⟩],
           _availableRanges := [⟨⟨5, 9⟩, 0, .kUnfilled⟩] }, true) ∧
    (∀ q ∈ [(⟨⟨0, 4⟩, 4, .kFilled⟩ : Range2)],
      q.state = RState.kFilled ∧ q.position ≠ q.end_ + 1) := by
  refine ⟨by decide, by decide, by decide, by decide⟩

/-- Claim C5 counterexample: `close(true)` on an opened 10-byte file
with allocated empty and only half finished returns the error — but the
early `return` skips the reset block, so the interval sets are *not*
cleared and `bytesTotal`/`processed` are *not* reset. -/
theorem close_error_path_keeps_state_counterexample :
    close { _blockHint := 4, _bytesTotal := 10, _bytesProcessed := 5,
            _allocateRanges := [], _finishedRanges := [⟨⟨0, 4⟩, 5, .kFilled⟩],
            _availableRanges := [⟨⟨5, 9⟩, 0, .kUnfilled⟩] } true
      = ({ _blockHint := 4, _bytesTotal := 10, _bytesProcessed := 5,
           _allocateRanges := [], _finishedRanges := [⟨⟨0, 4⟩, 5, .kFilled⟩],
           _availableRanges := [⟨⟨5, 9⟩, 0, .kUnfilled⟩] }, some kRuntimeError) ∧
    (close { _blockHint := 4, _bytesTotal := 10, _bytesProcessed := 5,
             _allocateRanges := [], _finishedRanges := [⟨⟨0, 4⟩, 5, .kFilled⟩],
             _availableRanges := [⟨⟨5, 9⟩, 0, .kUnfilled⟩] } true).1._availableRanges ≠ [] ∧
    (close { _blockHint := 4, _bytesTotal := 10, _bytesProcessed := 5,
             _allocateRanges := [], _finishedRanges := [⟨⟨0, 4⟩, 5, .kFilled⟩],
             _availableRanges := [⟨⟨5, 9⟩, 0, .kUnfilled⟩] } true).1._bytesTotal ≠ -1 := by
  refine ⟨by decide, by decide, by decide⟩

/-- Claim C5 (amended): `close(true)` on an opened RangeFile with
allocated empty, `bytesTotal > 0` and `is_full()` false returns an error
(`kRuntimeError`) — and on that early-error return the meta state is
left exactly as it was; on every *other* `close` call the three sets are
cleared and `bytesTotal`, `processed`, `blockHint` are reset to `-1`,
`0` and the default `0x100000`. -/
theorem close_error_and_reset (rf : RangeFileMeta) (b : Bool) :
    (rf._allocateRanges = [] → 0 < rf._bytesTotal → is_full rf = false →
      close rf true = (rf, some kRuntimeError)) ∧
    (¬ (b = true ∧ 0 < rf._bytesTotal ∧ is_full rf = false) →
      close rf b = (clearedMeta, none)) := by
  constructor
  · intro _ h1 h2
    unfold close
    rw [if_pos (by simp [h1, h2])]
  · intro h
    unfold close
    rw [if_neg]
    intro hcon
    simp only [Bool.and_eq_true, decide_eq_true_eq, Bool.not_eq_true'] at hcon
    exact h ⟨hcon.1.1, hcon.1.2, hcon.2⟩

/-- Witness for C5 at a concrete half-finished state. -/
theorem close_error_and_reset_witness :
    close { _blockHint := 4, _bytesTotal := 10, _bytesProcessed := 5,
            _allocateRanges := [], _finishedRanges := [⟨⟨0, 4⟩, 5, .kFilled⟩],
            _availableRanges := [⟨⟨5, 9⟩, 0, .kUnfilled⟩] } true
      = ({ _blockHint := 4, _bytesTotal := 10, _bytesProcessed := 5,
           _allocateRanges := [], _finishedRanges := [⟨⟨0, 4⟩, 5, .kFilled⟩],
           _availableRanges := [⟨⟨5, 9⟩, 0, .kUnfilled⟩] }, some kRuntimeError) ∧
    close { _blockHint := 4, _bytesTotal := 10, _bytesProcessed := 5,
            _allocateRanges := [], _finishedRanges := [⟨⟨0, 4⟩, 5, .kFilled⟩],
            _availableRanges := [⟨⟨5, 9⟩, 0, .kUnfilled⟩] } false
      = (clearedMeta, none) :=
  ⟨(close_error_and_reset
      { _blockHint := 4, _bytesTotal := 10, _bytesProcessed := 5,
        _allocateRanges := [], _finishedRanges := [⟨⟨0, 4⟩, 5, .kFilled⟩],
        _availableRanges := [⟨⟨5, 9⟩, 0, .kUnfilled⟩] }
      true).1 (by decide) (by decide) (by decide),
   (close_error_and_reset
      { _blockHint := 4, _bytesTotal := 10, _bytesProcessed := 5,
        _allocateRanges := [], _finishedRanges := [⟨⟨0, 4⟩, 5, .kFilled⟩],
        _availableRanges := [⟨⟨5, 9⟩, 0, .kUnfilled⟩] }
      false).2 (by decide)⟩

/-! ### The metadata restore step -/

theorem restore_fold_processed (L : List Range2) : ∀ m : RangeFileMeta,
    (List.foldl (fun m r =>
      { m with
        _availableRanges := setInsert m._availableRanges ⟨⟨r.start, r.end_⟩, 0, .kUnfilled⟩,
        _bytesProcessed := m._bytesProcessed - (r.position - r.start) }) m L)._bytesProcessed
      = m._bytesProcessed - (L.map (fun r => r.position - r.start)).sum := by
  induction L with
  | nil => intro m; simp
  | cons x xs ih =>
    intro m
    rw [List.foldl_cons, ih]
    simp only [List.map_cons, List.sum_cons]
    ring

theorem restore_fold_mem_preserved (L : List Range2) : ∀ (m : RangeFileMeta) (x : Range2),
    x ∈ m._availableRanges →
    x ∈ (List.foldl (fun m r =>
      { m with
        _availableRanges := setInsert m._availableRanges ⟨⟨r.start, r.end_⟩, 0, .kUnfilled⟩,
        _bytesProcessed := m._bytesProcessed - (r.position - r.start) }) m L)._availableRanges := by
  induction L with
  | nil => intro m x hx; exact hx
  | cons y ys ih =>
    intro m x hx
    rw [List.foldl_cons]
    exact ih _ x (mem_setInsert_of_mem _ _ _ hx)

theorem restore_fold_mem (L : List Range2) : ∀ m : RangeFileMeta,
    List.Pairwise (fun a b => a.start ≠ b.start) L →
    (∀ x ∈ L, ∀ y ∈ m._availableRanges, y.start ≠ x.start) →
    ∀ r ∈ L, (⟨⟨r.start, r.end_⟩, 0, .kUnfilled⟩ : Range2)
      ∈ (List.foldl (fun m r =>
        { m with
          _availableRanges := setInsert m._availableRanges ⟨⟨r.start, r.end_⟩, 0, .kUnfilled⟩,
          _bytesProcessed := m._bytesProcessed - (r.position - r.start) }) m L)._availableRanges := by
  induction L with
  | nil => intro m _ _ r hr; cases hr
  | cons y ys ih =>
    intro m hpw hcross r hr
    rw [List.foldl_cons]
    rcases List.mem_cons.mp hr with hr | hr
    · subst hr
      refine restore_fold_mem_preserved ys _ _ ?_
      refine self_mem_setInsert _ _ ?_
      intro z hz
      rw [range2_mk_start]
      exact hcross r (List.mem_cons_self _ _) z hz
    · refine ih _ (List.pairwise_cons.mp hpw).2 ?_ r hr
      intro x hx z hz
      rcases mem_setInsert _ _ _ hz with hz | hz
      · exact hcross x (List.mem_cons_of_mem _ hx) z hz
      · rw [hz, range2_mk_start]
        exact (List.pairwise_cons.mp hpw).1 x hx

/-- Claim C6: with a stored `(blockHint, bytesTotal)` matching the
current configuration, the restore step of `open` empties the stored
allocated set, subtracts `position - start` per allocated entry from
`processed`, and moves every allocated entry back into the available set
as `[start, end]` (unfilled); if the rebuilt sets fail to account for
exactly `bytesTotal` bytes, the restored state is discarded — `open`
keeps the current (fresh) state instead of failing. -/
theorem open_restore_spec (cur archive : RangeFileMeta)
    (hmatch : archive._blockHint = cur._blockHint ∧ archive._bytesTotal = cur._bytesTotal)
    (hdistinct : List.Pairwise (fun a b => a.start ≠ b.start)
      (archive._availableRanges ++ archive._allocateRanges)) :
    (restoreArchive archive)._allocateRanges = [] ∧
    (restoreArchive archive)._bytesProcessed
      = archive._bytesProcessed
        - (archive._allocateRanges.map (fun r => r.position - r.start)).sum ∧
    (∀ r ∈ archive._allocateRanges,
      (⟨⟨r.start, r.end_⟩, 0, .kUnfilled⟩ : Range2) ∈ (restoreArchive archive)._availableRanges) ∧
    (metaValid (restoreArchive archive) = true →
      openRestore cur archive
        = { cur with _bytesProcessed := (restoreArchive archive)._bytesProcessed,
                     _finishedRanges := (restoreArchive archive)._finishedRanges,
                     _availableRanges := (restoreArchive archive)._availableRanges }) ∧
    (metaValid (restoreArchive archive) = false → openRestore cur archive = cur) := by
  have hsplit := List.pairwise_append.mp hdistinct
  refine ⟨rfl, ?_, ?_, ?_, ?_⟩
  · exact restore_fold_processed archive._allocateRanges archive
  · intro r hr
    exact restore_fold_mem archive._allocateRanges archive hsplit.2.1
      (fun x hx y hy => hsplit.2.2 y hy x hx) r hr
  · intro hval
    unfold openRestore
    rw [if_pos hmatch]
    simp only [hval, if_true]
  · intro hval
    unfold openRestore
    rw [if_pos hmatch]
    simp only [hval, Bool.false_eq_true, if_false]

/-- Witness for C6: a half-done 10-byte download with one in-flight
range `[4,7]` filled up to 6 is restored with that range back in
`available` and `processed` reduced from 7 to 5. -/
theorem open_restore_spec_witness :
    openRestore (freshMeta 10 4)
      { _blockHint := 4, _bytesTotal := 10, _bytesProcessed := 7,
        _allocateRanges := [⟨⟨4, 7⟩, 6, .kPartial⟩],
        _finishedRanges := [⟨⟨0, 3⟩, 4, .kFilled⟩],
        _availableRanges := [⟨⟨8, 9⟩, 0, .kUnfilled⟩] }
      = { _blockHint := 4, _bytesTotal := 10, _bytesProcessed := 5,
          _allocateRanges := [], _finishedRanges := [⟨⟨0, 3⟩, 4, .kFilled⟩],
          _availableRanges := [⟨⟨4, 7⟩, 0, .kUnfilled⟩, ⟨⟨8, 9⟩, 0, .kUnfilled⟩] } :=
  (open_restore_spec (freshMeta 10 4)
    { _blockHint := 4, _bytesTotal := 10, _bytesProcessed := 7,
      _allocateRanges := [⟨⟨4, 7⟩, 6, .kPartial⟩],
      _finishedRanges := [⟨⟨0, 3⟩, 4, .kFilled⟩],
      _availableRanges := [⟨⟨8, 9⟩, 0, .kUnfilled⟩] }
    (by decide) (by decide)).2.2.2.1 (by decide)

theorem tileChain_tail (hint total s : Int) (c : Range2) (T : List Range2)
    (h : TileChain hint total s (c :: T)) : T = [] ∨ TileChain hint total (s + hint) T := by
  cases h with
  | last s h0 h1 h2 => left; rfl
  | cons s T h0 hh hmin hlt hch => right; exact hch

/-- Claim C3: deallocating an allocated range in state `kPartial` with
`start ≤ position ≤ end` removes it from the allocated set, inserts the
filled prefix `[start, position-1]` into the finished set (running the
coalescing pass), inserts the tail `[position, end]` into the available
set as unfilled, and returns true; and over a single allocate / fill of
`n` bytes / deallocate run on a fresh file, `processed` ends up exactly
`n`, the length of the persisted prefix `[0, n-1]`, with the tail
`[n, end]` back in the available set. -/
theorem deallocate_partial_spec (rf : RangeFileMeta) (r : Range2) (total hint n : Int)
    (hmem : r ∈ rf._allocateRanges) (hstate : r.state = RState.kPartial)
    (hpos : r.start ≤ r.position ∧ r.position ≤ r.end_)
    (htotal : 0 < total) (hhint : 2 ≤ hint) (hn : 1 ≤ n) (hnlt : n < min hint total) :
    (deallocate rf r
      = ({ rf with
           _allocateRanges := setErase rf._allocateRanges r.start,
           _finishedRanges := mergeRangesList (setInsert rf._finishedRanges
             ⟨⟨r.start, r.position - 1⟩, r.position - 1, .kFilled⟩),
           _availableRanges := setInsert rf._availableRanges
             ⟨⟨r.position, r.end_⟩, 0, .kUnfilled⟩ }, true)) ∧
    (∃ T2 rf3,
      allocate total.toNat (freshMeta total hint)
        = some ({ freshMeta total hint with
                  _availableRanges := T2,
                  _allocateRanges :=
                    [⟨⟨0, min (hint - 1) (total - 1)⟩, 0, .kPending⟩] },
                some ⟨⟨0, min (hint - 1) (total - 1)⟩, 0, .kPending⟩) ∧
      fill { freshMeta total hint with
             _availableRanges := T2,
             _allocateRanges := [⟨⟨0, min (hint - 1) (total - 1)⟩, 0, .kPending⟩] }
          ⟨⟨0, min (hint - 1) (total - 1)⟩, 0, .kPending⟩ n
        = ({ freshMeta total hint with
             _bytesProcessed := n,
             _availableRanges := T2,
             _allocateRanges := [⟨⟨0, min (hint - 1) (total - 1)⟩, n, .kPartial⟩] },
           ⟨⟨0, min (hint - 1) (total - 1)⟩, n, .kPartial⟩) ∧
      deallocate { freshMeta total hint with
                   _bytesProcessed := n,
                   _availableRanges := T2,
                   _allocateRanges :=
                     [⟨⟨0, min (hint - 1) (total - 1)⟩, n, .kPartial⟩] }
          ⟨⟨0, min (hint - 1) (total - 1)⟩, n, .kPartial⟩
        = (rf3, true) ∧
      rf3._bytesProcessed = n ∧
      rf3._allocateRanges = [] ∧
      rf3._finishedRanges = [⟨⟨0, n - 1⟩, n - 1, .kFilled⟩] ∧
      (∃ L2, rf3._availableRanges
        = ⟨⟨n, min (hint - 1) (total - 1)⟩, 0, .kUnfilled⟩ :: L2)) := by
  constructor
  · unfold deallocate
    cases hfd : setFindStart rf._allocateRanges r.start with
    | none =>
      have hs := setFindStart_isSome_of_mem _ r hmem
      rw [hfd] at hs
      cases hs
    | some y =>
      simp only
      rw [hstate]
  · obtain ⟨T, hT, hTC⟩ := tileLoop_entry hint total (by omega) (by omega) (Or.inl hhint)
      total.toNat (le_refl _)
    obtain ⟨c, T2, hcT, hcs, hce, hcp, hcst⟩ := tileChain_head hint total 0 T hTC
    have hceq : c = ⟨⟨0, min (hint - 1) (total - 1)⟩, 0, .kUnfilled⟩ := by
      obtain ⟨⟨a, b⟩, p, st⟩ := c
      rw [range2_mk_start] at hcs
      rw [range2_mk_end] at hce
      rw [range2_mk_position] at hcp
      rw [range2_mk_state] at hcst
      rw [hcs, hce, hcp, hcst]
      rw [show (0:Int) + hint - 1 = hint - 1 by ring]
    rw [hceq] at hcT
    rw [hcT] at hT hTC
    have hT' : tileLoop (freshMeta total hint)._blockHint (freshMeta total hint)._bytesTotal
        total.toNat { start := 0, end_ := 0 } []
        = some (⟨⟨0, min (hint - 1) (total - 1)⟩, 0, .kUnfilled⟩ :: T2) := hT
    have hM0 : 0 ≤ min (hint - 1) (total - 1) := by omega
    have hM1 : n ≤ min (hint - 1) (total - 1) := by omega
    refine ⟨T2,
      { freshMeta total hint with
        _bytesProcessed := n,
        _allocateRanges := [],
        _finishedRanges := [⟨⟨0, n - 1⟩, n - 1, .kFilled⟩],
        _availableRanges := setInsert T2
          ⟨⟨n, min (hint - 1) (total - 1)⟩, 0, .kUnfilled⟩ },
      ?_, ?_, ?_, rfl, rfl, rfl, ?_⟩
    · unfold allocate
      rw [if_neg (show ¬ (freshMeta total hint)._bytesTotal ≤ 0 by simp [freshMeta]; omega)]
      rw [if_pos (show ((freshMeta total hint)._availableRanges.isEmpty
          && (freshMeta total hint)._allocateRanges.isEmpty
          && (freshMeta total hint)._finishedRanges.isEmpty) = true from rfl)]
      rw [hT']
      rfl
    · unfold fill
      rw [if_neg (by simp [Range.valid]; omega), if_neg (by omega)]
      simp only [range2_mk_position, range2_mk_end]
      rw [show (0:Int) + n = n by ring]
      rw [if_neg (show ¬ n = min (hint - 1) (total - 1) + 1 by omega)]
      rw [show (freshMeta total hint)._bytesProcessed + n = n from by simp [freshMeta]]
      rfl
    · unfold deallocate
      simp only [setFindStart, range2_mk_start, if_pos]
      rfl
    · rcases tileChain_tail hint total 0 _ T2 hTC with hT2 | hch
      · rw [hT2]
        exact ⟨[], rfl⟩
      · refine ⟨T2, ?_⟩
        have hlb := tileChain_start_lb hint total (0 + hint) T2 hch
        exact setInsert_eq_cons T2
          ⟨⟨n, min (hint - 1) (total - 1)⟩, 0, .kUnfilled⟩
          (by
            intro y hy
            have := hlb y hy
            rw [range2_mk_start]
            omega)

theorem deallocate_partial_spec_witness :
    (deallocate
        { _blockHint := 16, _bytesTotal := 10, _bytesProcessed := 5,
          _allocateRanges := [⟨⟨0, 9⟩, 5, .kPartial⟩],
          _finishedRanges := [], _availableRanges := [] }
        ⟨⟨0, 9⟩, 5, .kPartial⟩
      = ({ _blockHint := 16, _bytesTotal := 10, _bytesProcessed := 5,
           _allocateRanges := [],
           _finishedRanges := [⟨⟨0, 4⟩, 4, .kFilled⟩],
           _availableRanges := [⟨⟨5, 9⟩, 0, .kUnfilled⟩] }, true)) ∧
    (∃ T2 rf3,
      allocate 10 (freshMeta 10 16)
        = some ({ freshMeta 10 16 with
                  _availableRanges := T2,
                  _allocateRanges := [⟨⟨0, 9⟩, 0, .kPending⟩] },
                some ⟨⟨0, 9⟩, 0, .kPending⟩) ∧
      fill { freshMeta 10 16 with
             _availableRanges := T2,
             _allocateRanges := [⟨⟨0, 9⟩, 0, .kPending⟩] }
          ⟨⟨0, 9⟩, 0, .kPending⟩ 5
        = ({ freshMeta 10 16 with
             _bytesProcessed := 5, _availableRanges := T2,
             _allocateRanges := [⟨⟨0, 9⟩, 5, .kPartial⟩] },
           ⟨⟨0, 9⟩, 5, .kPartial⟩) ∧
      deallocate { freshMeta 10 16 with
                   _bytesProcessed := 5, _availableRanges := T2,
                   _allocateRanges := [⟨⟨0, 9⟩, 5, .kPartial⟩] }
          ⟨⟨0, 9⟩, 5, .kPartial⟩
        = (rf3, true) ∧
      rf3._bytesProcessed = 5 ∧
      rf3._allocateRanges = [] ∧
      rf3._finishedRanges = [⟨⟨0, 4⟩, 4, .kFilled⟩] ∧
      (∃ L2, rf3._availableRanges = ⟨⟨5, 9⟩, 0, .kUnfilled⟩ :: L2)) :=
  deallocate_partial_spec
    { _blockHint := 16, _bytesTotal := 10, _bytesProcessed := 5,
      _allocateRanges := [⟨⟨0, 9⟩, 5, .kPartial⟩],
      _finishedRanges := [], _availableRanges := [] }
    ⟨⟨0, 9⟩, 5, .kPartial⟩ 10 16 5
    (List.mem_singleton.mpr rfl) rfl (by decide) (by decide) (by decide)
    (by decide) (by decide)

/-- Claim C2 counterexample: with `blockHint = 1` and `bytesTotal = 2`
(allowed by the claim's stated precondition `blockHint ≥ 1`) the tiling
`do/while` in `RangeFile::allocate` never terminates — after the first
chunk `[0, 0]` every iteration recomputes `start` as `0` because
`last.end > 0` is false, so the loop never reaches `bytesTotal - 1`;
the model's `allocate` accordingly diverges for every fuel bound. -/
theorem allocate_blockhint_one_hangs :
    0 < (freshMeta 2 1)._bytesTotal ∧ (freshMeta 2 1)._blockHint = 1 ∧
    ∀ fuel : Nat, allocate fuel (freshMeta 2 1) = none := by
  refine ⟨by decide, rfl, ?_⟩
  intro fuel
  unfold allocate
  rw [if_neg (show ¬ (freshMeta 2 1)._bytesTotal ≤ 0 by decide)]
  rw [if_pos (show ((freshMeta 2 1)._availableRanges.isEmpty
      && (freshMeta 2 1)._allocateRanges.isEmpty
      && (freshMeta 2 1)._finishedRanges.isEmpty) = true from rfl)]
  rw [show (freshMeta 2 1)._blockHint = 1 from rfl]
  rw [show (freshMeta 2 1)._bytesTotal = 2 from rfl]
  rw [tileLoop_stuck 1 2 (by omega) (by omega) (by omega) fuel
    { start := 0, end_ := 0 } [] (by decide)]

/-- Claim C2 (amended): the claim's behaviour holds for `blockHint ≥ 2`
— for `blockHint = 1` on a file of at least two bytes the tiling loop
diverges, see the counterexample.  On a freshly reserved file,
`allocate` tiles `[0, bytesTotal-1]` into contiguous chunks starting at
`0` and ending at `bytesTotal - 1`, every chunk of size at most
`blockHint` and all but the last of size exactly `blockHint`, and pops
the first chunk as `kPending` with `position = start` into the
allocated set.  On any state where the three sets are not all empty,
`allocate` returns no range exactly when the available set is empty,
and otherwise pops the first available member — the one of least
`start` when the set is sorted — marking it `kPending` with
`position = start` and inserting it into the allocated set. -/
theorem allocate_tiles_and_pops (total hint : Int) (fuel : Nat)
    (htotal : 0 < total) (hhint : 2 ≤ hint) (hfuel : total.toNat ≤ fuel) :
    (∃ c T,
      allocate fuel (freshMeta total hint)
        = some ({ freshMeta total hint with
                  _availableRanges := T,
                  _allocateRanges :=
                    [{ c with state := RState.kPending, position := c.start }] },
                some { c with state := RState.kPending, position := c.start }) ∧
      c.start = 0 ∧
      (∀ r ∈ c :: T, 1 ≤ r.toRange.size ∧ r.toRange.size ≤ hint) ∧
      (∀ r ∈ (c :: T).dropLast, r.toRange.size = hint) ∧
      List.Chain' (fun a b : Range2 => b.start = a.end_ + 1) (c :: T) ∧
      (∀ q, (c :: T).getLast? = some q → q.end_ = total - 1)) ∧
    (∀ (rf : RangeFileMeta) (fuel2 : Nat), 0 < rf._bytesTotal →
      ((rf._availableRanges.isEmpty && rf._allocateRanges.isEmpty
        && rf._finishedRanges.isEmpty) = false) →
      (rf._availableRanges = [] →
        allocate fuel2 rf = some ({ rf with _availableRanges := [] }, none)) ∧
      (∀ c rest, rf._availableRanges = c :: rest →
        allocate fuel2 rf
          = some ({ rf with
                    _availableRanges := rest,
                    _allocateRanges := setInsert rf._allocateRanges
                      { c with state := RState.kPending, position := c.start } },
                  some { c with state := RState.kPending, position := c.start }) ∧
        (List.Pairwise (fun a b : Range2 => a.start < b.start) rf._availableRanges →
          ∀ y ∈ rf._availableRanges, c.start ≤ y.start))) := by
  constructor
  · obtain ⟨T0, hT, hTC⟩ := tileLoop_entry hint total (by omega) (by omega)
      (Or.inl hhint) fuel hfuel
    obtain ⟨c, T2, hcT, hcs, hce, hcp, hcst⟩ := tileChain_head hint total 0 T0 hTC
    rw [hcT] at hT hTC
    refine ⟨c, T2, ?_, hcs,
      tileChain_sizes hint total 0 (c :: T2) hTC,
      tileChain_dropLast hint total 0 (c :: T2) hTC,
      tileChain_chain' hint total 0 (c :: T2) hTC,
      tileChain_last_end hint total 0 (c :: T2) hTC⟩
    unfold allocate
    rw [if_neg (show ¬ (freshMeta total hint)._bytesTotal ≤ 0 by
      simp [freshMeta]; omega)]
    rw [if_pos (show ((freshMeta total hint)._availableRanges.isEmpty
        && (freshMeta total hint)._allocateRanges.isEmpty
        && (freshMeta total hint)._finishedRanges.isEmpty) = true from rfl)]
    have hT' : tileLoop (freshMeta total hint)._blockHint (freshMeta total hint)._bytesTotal
        fuel { start := 0, end_ := 0 } [] = some (c :: T2) := hT
    rw [hT']
    rfl
  · intro rf fuel2 ht0 hne
    constructor
    · intro hav
      unfold allocate
      rw [if_neg (show ¬ rf._bytesTotal ≤ 0 by omega)]
      rw [if_neg (show ¬ (rf._availableRanges.isEmpty && rf._allocateRanges.isEmpty
          && rf._finishedRanges.isEmpty) = true by rw [hne]; exact Bool.false_ne_true)]
      rw [hav]
    · intro c rest hav
      constructor
      · unfold allocate
        rw [if_neg (show ¬ rf._bytesTotal ≤ 0 by omega)]
        rw [if_neg (show ¬ (rf._availableRanges.isEmpty && rf._allocateRanges.isEmpty
            && rf._finishedRanges.isEmpty) = true by rw [hne]; exact Bool.false_ne_true)]
        rw [hav]
      · intro hpw y hy
        rw [hav] at hpw hy
        rcases List.mem_cons.mp hy with hy | hy
        · rw [hy]
        · exact le_of_lt ((List.pairwise_cons.mp hpw).1 y hy)

theorem allocate_tiles_and_pops_witness :
    (∃ c T,
      allocate 5 (freshMeta 5 2)
        = some ({ freshMeta 5 2 with
                  _availableRanges := T,
                  _allocateRanges :=
                    [{ c with state := RState.kPending, position := c.start }] },
                some { c with state := RState.kPending, position := c.start }) ∧
      c.start = 0 ∧
      (∀ r ∈ c :: T, 1 ≤ r.toRange.size ∧ r.toRange.size ≤ 2) ∧
      (∀ r ∈ (c :: T).dropLast, r.toRange.size = 2) ∧
      List.Chain' (fun a b : Range2 => b.start = a.end_ + 1) (c :: T) ∧
      (∀ q, (c :: T).getLast? = some q → q.end_ = 5 - 1)) ∧
    (∀ (rf : RangeFileMeta) (fuel2 : Nat), 0 < rf._bytesTotal →
      ((rf._availableRanges.isEmpty && rf._allocateRanges.isEmpty
        && rf._finishedRanges.isEmpty) = false) →
      (rf._availableRanges = [] →
        allocate fuel2 rf = some ({ rf with _availableRanges := [] }, none)) ∧
      (∀ c rest, rf._availableRanges = c :: rest →
        allocate fuel2 rf
          = some ({ rf with
                    _availableRanges := rest,
                    _allocateRanges := setInsert rf._allocateRanges
                      { c with state := RState.kPending, position := c.start } },
                  some { c with state := RState.kPending, position := c.start }) ∧
        (List.Pairwise (fun a b : Range2 => a.start < b.start) rf._availableRanges →
          ∀ y ∈ rf._availableRanges, c.start ≤ y.start))) :=
  allocate_tiles_and_pops 5 2 5 (by decide) (by decide) (by decide)

/-- Claim C1 counterexample: the freshly reserved state is reachable by
the empty sequence of calls and has `bytesTotal > 0`, yet all three sets
are empty, so the sum of the sizes of their members is `0`, not
`bytesTotal` — the claimed equality fails before the first `allocate`
initializes the tiling. -/
theorem rangefile_partition_fails_at_fresh :
    Reach 4 2 (freshMeta 4 2) ∧ 0 < (freshMeta 4 2)._bytesTotal ∧
    sumSizes (allRanges (freshMeta 4 2)) ≠ (freshMeta 4 2)._bytesTotal :=
  ⟨Reach.init, by decide, by decide⟩

/-- Claim C1 (amended): in every state reachable from a freshly
reserved `RangeFile(total, hint)` with `total > 0` by legal `allocate`,
`fill` and `deallocate` calls, the available, allocated and finished
sets are pairwise disjoint as sets of bytes; and whenever the three
sets are not all empty — that is, once the first `allocate` has tiled
the file — the sum of the sizes of all their members equals
`bytesTotal`.  In the freshly reserved state itself (the empty call
sequence) all three sets are empty and the sum is `0`, see the
counterexample. -/
theorem rangefile_partition_invariant (total hint : Int) (rf : RangeFileMeta)
    (htotal : 0 < total) (hreach : Reach total hint rf) :
    (DisjointBytes rf._availableRanges rf._allocateRanges ∧
     DisjointBytes rf._availableRanges rf._finishedRanges ∧
     DisjointBytes rf._allocateRanges rf._finishedRanges) ∧
    (allRanges rf ≠ [] → sumSizes (allRanges rf) = total) := by
  rcases reach_fresh_or_inv total hint htotal rf hreach with h | h
  · subst h
    refine ⟨⟨?_, ?_, ?_⟩, fun hne => absurd rfl hne⟩ <;>
      · intro b hcon
        obtain ⟨⟨r, hr, _⟩, _⟩ := hcon
        exact absurd hr (List.not_mem_nil r)
  · exact ⟨stateInv_disjoint total rf h, fun _ => stateInv_sum total htotal rf h⟩

theorem rangefile_partition_invariant_witness :
    (DisjointBytes
        ({ _blockHint := 2, _bytesTotal := 4, _bytesProcessed := 0,
           _allocateRanges := [⟨⟨0, 1⟩, 0, .kPending⟩],
           _finishedRanges := [],
           _availableRanges := [⟨⟨2, 3⟩, 0, .kUnfilled⟩] } : RangeFileMeta)._availableRanges
        ({ _blockHint := 2, _bytesTotal := 4, _bytesProcessed := 0,
           _allocateRanges := [⟨⟨0, 1⟩, 0, .kPending⟩],
           _finishedRanges := [],
           _availableRanges := [⟨⟨2, 3⟩, 0, .kUnfilled⟩] } : RangeFileMeta)._allocateRanges ∧
     DisjointBytes
        ({ _blockHint := 2, _bytesTotal := 4, _bytesProcessed := 0,
           _allocateRanges := [⟨⟨0, 1⟩, 0, .kPending⟩],
           _finishedRanges := [],
           _availableRanges := [⟨⟨2, 3⟩, 0, .kUnfilled⟩] } : RangeFileMeta)._availableRanges
        ({ _blockHint := 2, _bytesTotal := 4, _bytesProcessed := 0,
           _allocateRanges := [⟨⟨0, 1⟩, 0, .kPending⟩],
           _finishedRanges := [],
           _availableRanges := [⟨⟨2, 3⟩, 0, .kUnfilled⟩] } : RangeFileMeta)._finishedRanges ∧
     DisjointBytes
        ({ _blockHint := 2, _bytesTotal := 4, _bytesProcessed := 0,
           _allocateRanges := [⟨⟨0, 1⟩, 0, .kPending⟩],
           _finishedRanges := [],
           _availableRanges := [⟨⟨2, 3⟩, 0, .kUnfilled⟩] } : RangeFileMeta)._allocateRanges
        ({ _blockHint := 2, _bytesTotal := 4, _bytesProcessed := 0,
           _allocateRanges := [⟨⟨0, 1⟩, 0, .kPending⟩],
           _finishedRanges := [],
           _availableRanges := [⟨⟨2, 3⟩, 0, .kUnfilled⟩] } : RangeFileMeta)._finishedRanges) ∧
    (allRanges
        { _blockHint := 2, _bytesTotal := 4, _bytesProcessed := 0,
          _allocateRanges := [⟨⟨0, 1⟩, 0, .kPending⟩],
          _finishedRanges := [],
          _availableRanges := [⟨⟨2, 3⟩, 0, .kUnfilled⟩] } ≠ [] →
      sumSizes (allRanges
        { _blockHint := 2, _bytesTotal := 4, _bytesProcessed := 0,
          _allocateRanges := [⟨⟨0, 1⟩, 0, .kPending⟩],
          _finishedRanges := [],
          _availableRanges := [⟨⟨2, 3⟩, 0, .kUnfilled⟩] }) = 4) :=
  rangefile_partition_invariant 4 2
    { _blockHint := 2, _bytesTotal := 4, _bytesProcessed := 0,
      _allocateRanges := [⟨⟨0, 1⟩, 0, .kPending⟩],
      _finishedRanges := [],
      _availableRanges := [⟨⟨2, 3⟩, 0, .kUnfilled⟩] }
    (by decide)
    (Reach.alloc (freshMeta 4 2)
      { _blockHint := 2, _bytesTotal := 4, _bytesProcessed := 0,
        _allocateRanges := [⟨⟨0, 1⟩, 0, .kPending⟩],
        _finishedRanges := [],
        _availableRanges := [⟨⟨2, 3⟩, 0, .kUnfilled⟩] }
      (some ⟨⟨0, 1⟩, 0, .kPending⟩) 5 Reach.init (by decide))
